import Mathlib

/-!
Verification of the dependency normalization, grouping and conflict-resolution
engine of `unidep` (`src/unidep.py`), against its natural-language specification.

The Python source is shallowly embedded: Python dicts (which preserve insertion
order) become association lists `List (κ × ν)`; `dict.pop` on a dict whose keys
are distinct is `List.filter` on the key; exceptions become `Except`; the
`warnings.warn` calls become an explicit list of structured warning values
returned alongside each result.  All definitions are executable.
-/

/-- The `Platform` literal type of `unidep.py`: the six concrete target
platforms, in source declaration order. -/
inductive Platform where
  | linux64
  | linuxAarch64
  | linuxPpc64le
  | osx64
  | osxArm64
  | win64
deriving DecidableEq

/-- The platform identifier string of each `Platform` literal. -/
def platformStr : Platform → String
  | .linux64 => "linux-64"
  | .linuxAarch64 => "linux-aarch64"
  | .linuxPpc64le => "linux-ppc64le"
  | .osx64 => "osx-64"
  | .osxArm64 => "osx-arm64"
  | .win64 => "win-64"

/-- `get_args(Platform)`: all six platforms in declaration order. -/
def allPlatforms : List Platform :=
  [.linux64, .linuxAarch64, .linuxPpc64le, .osx64, .osxArm64, .win64]

/-- The `CondaPip` literal type: which ecosystem a dependency targets. -/
inductive CondaPip where
  | conda
  | pip
deriving DecidableEq

/-- The `CondaPlatform` literal type (`"unix" | "linux" | "osx" | "win"`),
the coarse platform classes understood by conda's `sel(...)` syntax. -/
inductive CondaPlatform where
  | unix
  | linux
  | osx
  | win
deriving DecidableEq

/-- `_conda_sel`: the coarse conda platform of a concrete platform, obtained in
the source by taking the platform string up to the first `-`
(`sel.split("-", 1)[0]`); the source asserts the result is a valid
`CondaPlatform`, which holds for all six platforms. -/
def condaSel : Platform → CondaPlatform
  | .linux64 => .linux
  | .linuxAarch64 => .linux
  | .linuxPpc64le => .linux
  | .osx64 => .osx
  | .osxArm64 => .osx
  | .win64 => .win

/-- `PLATFORM_SELECTOR_MAP`: the selector tokens that denote each platform
(the first element of each list is the unique selector). -/
def platformSelectorMap : Platform → List String
  | .linux64 => ["linux64", "unix", "linux"]
  | .linuxAarch64 => ["aarch64", "unix", "linux"]
  | .linuxPpc64le => ["ppc64le", "unix", "linux"]
  | .osx64 => ["osx64", "osx", "macos", "unix"]
  | .osxArm64 => ["arm64", "osx", "macos", "unix"]
  | .win64 => ["win64", "win"]

/-- `PLATFORM_SELECTOR_MAP_REVERSE[tok]` as a set of platforms: the platforms
whose selector list contains `tok`.  The source builds this reverse mapping by
iterating `PLATFORM_SELECTOR_MAP`; a token is a key of the reverse mapping
exactly when some platform lists it. -/
def selectorPlatforms (tok : String) : List Platform :=
  allPlatforms.filter (fun p => (platformSelectorMap p).contains tok)

/-- `tok in PLATFORM_SELECTOR_MAP_REVERSE`. -/
def knownSelector (tok : String) : Bool :=
  allPlatforms.any (fun p => (platformSelectorMap p).contains tok)

/-- `PEP508_MARKERS` restricted to its single-platform keys (all six platforms
are keys of the dict). -/
def pep508Marker : Platform → String
  | .linux64 => "sys_platform == 'linux' and platform_machine == 'x86_64'"
  | .linuxAarch64 => "sys_platform == 'linux' and platform_machine == 'aarch64'"
  | .linuxPpc64le => "sys_platform == 'linux' and platform_machine == 'ppc64le'"
  | .osx64 => "sys_platform == 'darwin' and platform_machine == 'x86_64'"
  | .osxArm64 => "sys_platform == 'darwin' and platform_machine == 'arm64'"
  | .win64 => "sys_platform == 'win32' and platform_machine == 'AMD64'"

/-- The tuple-valued keys of `PEP508_MARKERS`.  In the source the lookup
`tuple(sorted(platforms)) in PEP508_MARKERS` can only hit these three keys:
a 1-tuple never equals a plain-string (single platform) key of the dict. -/
def pep508TupleMarker : List Platform → Option String
  | [.linux64, .linuxAarch64, .linuxPpc64le] => some "sys_platform == 'linux'"
  | [.osx64, .osxArm64] => some "sys_platform == 'darwin'"
  | [.linux64, .linuxAarch64, .linuxPpc64le, .osx64, .osxArm64] =>
      some "sys_platform == 'linux' or sys_platform == 'darwin'"
  | _ => none

/-- The order on platforms used by Python's `sorted`: lexicographic
(code-point) comparison of the platform identifier strings, expressed on the
character lists. -/
def platLE (p q : Platform) : Prop := (platformStr p).data ≤ (platformStr q).data

instance : DecidableRel platLE := fun _ _ => by
  unfold platLE; infer_instance

instance : IsTotal Platform platLE := ⟨fun p q => le_total (platformStr p).data (platformStr q).data⟩

instance : IsTrans Platform platLE := ⟨fun _ _ _ h h' => le_trans h h'⟩

theorem platformStr_injective : Function.Injective platformStr := by
  intro p q h
  cases p <;> cases q <;> first | rfl | (exfalso; revert h; decide)

theorem stringData_injective : Function.Injective String.data := by
  intro a b h
  cases a; cases b; simp only at h; exact congrArg String.mk h

instance : IsAntisymm Platform platLE :=
  ⟨fun _ _ h h' => platformStr_injective (stringData_injective (le_antisymm h h'))⟩

/-- Python's `sorted` on a list of platforms (string comparison of their
identifiers). -/
def sortPlatforms (l : List Platform) : List Platform := List.insertionSort platLE l

/-- `_build_pep508_environment_marker`: sort the platforms, look the sorted
tuple up in `PEP508_MARKERS`, and otherwise join the per-platform markers
with `" or "` (every single platform is a key of the dict, so the
`if platform in PEP508_MARKERS` filter in the source keeps everything). -/
def buildPep508EnvironmentMarker (platforms : List Platform) : String :=
  let sortedPlatforms := sortPlatforms platforms
  match pep508TupleMarker sortedPlatforms with
  | some marker => marker
  | none => String.intercalate " or " (sortedPlatforms.map pep508Marker)

/-- The fatal parse errors of `extract_matching_platforms` (both are
`ValueError` in the source; the payload records the offending line or the
whole comment, mirroring the messages built in the source). -/
inductive Err where
  | multipleBrackets (line : List Char)
  | unsupportedSelector (comment : List Char)
deriving DecidableEq

/-- A dependency record: the `Meta` named tuple
`(name, which, comment, pin)` of the source. -/
structure Meta where
  name : String
  which : CondaPip
  comment : Option String := none
  pin : Option String := none
deriving DecidableEq

/-- The structured content of the `warnings.warn` calls of the source. -/
inductive Warn where
  /-- "Platform Conflict Detected": on `onPlatform` (`none` rendered as
  "all platforms"), `selected` (of ecosystem `which`) is retained and
  `discarded` are discarded. -/
  | platformConflict (onPlatform : Option Platform) (which : CondaPip)
      (selected : Meta) (discarded : List Meta)
  /-- "Version Pinning Conflict": different pins for conda and pip;
  both are retained. -/
  | pinConflict (condaPin pipPin : Option String)
  /-- "Dependency Conflict" on a coarse conda platform: `kept` is retained,
  `discarded` are discarded. -/
  | condaPlatformConflict (onPlatform : CondaPlatform) (kept : Meta)
      (discarded : List Meta)
deriving DecidableEq

/- ### Selector-comment parsing (`extract_matching_platforms`) -/

/-- Python `\s` on the ASCII range (the whitespace characters relevant to
comment lines). -/
def isSpaceChar (c : Char) : Bool :=
  c = ' ' || c = '\t' || c = '\n' || c = '\r' || c = '\x0b' || c = '\x0c'

/-- `str.splitlines(keepends=False)` for `\n`-separated text: the list of
lines, with no trailing empty line for text ending in `\n`. -/
def splitlinesAux : List Char → List Char → List (List Char)
  | [], cur => if cur.isEmpty then [] else [cur.reverse]
  | c :: rest, cur =>
    if c = '\n' then cur.reverse :: splitlinesAux rest []
    else splitlinesAux rest (c :: cur)

/-- The logical lines of a comment string. -/
def splitlines (s : List Char) : List (List Char) := splitlinesAux s []

/-- The suffix after the first occurrence of `c`, if any. -/
def afterFirst (c : Char) : List Char → Option (List Char)
  | [] => none
  | x :: xs => if x = c then some xs else afterFirst c xs

/-- `re.search(r"#.*\].*\[", line)`: the line contains a `#`, then later
a `]`, then later a `[` (the source's detector for multiple bracketed
selector groups). -/
def multiBracket (line : List Char) : Bool :=
  match afterFirst '#' line with
  | none => false
  | some r1 =>
    match afterFirst ']' r1 with
    | none => false
    | some r2 => r2.contains '['

/-- Attempt to match `\s*\[([^\[\]]+)\]` at the start of the text following a
`#`: skip whitespace, require `[`, take the maximal nonempty run of
non-bracket characters, require `]`; return the bracket content.  The regex
components are pairwise disjoint so the greedy matching needs no
backtracking. -/
def matchSelAt (l : List Char) : Option (List Char) :=
  let l' := l.dropWhile isSpaceChar
  match l' with
  | '[' :: rest =>
    let content := rest.takeWhile (fun c => !(c = '[' || c = ']'))
    let rest' := rest.dropWhile (fun c => !(c = '[' || c = ']'))
    if content.isEmpty then none
    else
      match rest' with
      | ']' :: _ => some content
      | _ => none
  | _ => none

/-- `re.search(r"#\s*\[([^\[\]]+)\]", line).group(1)`: the content of the
leftmost bracketed selector group following a `#`, if any. -/
def findSelGroup : List Char → Option (List Char)
  | [] => none
  | c :: rest =>
    if c = '#' then
      match matchSelAt rest with
      | some g => some g
      | none => findSelGroup rest
    else findSelGroup rest

/-- `str.split()` with no argument: the whitespace-separated tokens. -/
def splitWsAux : List Char → List Char → List (List Char)
  | [], cur => if cur.isEmpty then [] else [cur.reverse]
  | c :: rest, cur =>
    if isSpaceChar c then
      if cur.isEmpty then splitWsAux rest []
      else cur.reverse :: splitWsAux rest []
    else splitWsAux rest (c :: cur)

/-- The whitespace-separated tokens of a character list. -/
def splitWs (l : List Char) : List (List Char) := splitWsAux l []

/-- `set.add`: append an element to a list if absent (the source accumulates
matching platforms in a set; only membership and emptiness of the result are
consumed downstream). -/
def setAdd (s : List Platform) (p : Platform) : List Platform :=
  if s.contains p then s else s ++ [p]

/-- Add all platforms of a selector token to the accumulated set. -/
def setAddAll (s : List Platform) (ps : List Platform) : List Platform :=
  ps.foldl setAdd s

/-- Process one logical line of a comment, accumulating matched platforms:
raise on multiple bracket groups, and for the (single) bracketed group
resolve each token, raising on unknown tokens. -/
def extractLine (comment : List Char) (acc : List Platform) (line : List Char) :
    Except Err (List Platform) :=
  if multiBracket line then
    .error (.multipleBrackets line)
  else
    match findSelGroup line with
    | some g =>
      (splitWs g).foldlM
        (fun acc tok =>
          if knownSelector (String.mk tok) then
            pure (setAddAll acc (selectorPlatforms (String.mk tok)))
          else
            .error (.unsupportedSelector comment))
        acc
    | none => pure acc

/-- `extract_matching_platforms(comment)`: scan the lines of a comment for
bracketed selector groups and return the union of the platforms denoted by
their tokens; fatal error on a line with multiple bracket groups or an
unknown token. -/
def extractMatchingPlatformsL (comment : List Char) : Except Err (List Platform) :=
  (splitlines comment).foldlM (extractLine comment) []

/-- `extract_matching_platforms` on a `String`. -/
def extractMatchingPlatforms (comment : String) : Except Err (List Platform) :=
  extractMatchingPlatformsL comment.toList

/-- `Meta.platforms()`: the platform restriction of a dependency record;
`none` (the wildcard) when there is no comment or the comment yields no
platforms (`extract_matching_platforms(self.comment) or None`). -/
def Meta.platforms (m : Meta) : Except Err (Option (List Platform)) :=
  match m.comment with
  | none => pure none
  | some c => do
    let ps ← extractMatchingPlatforms c
    pure (if ps.isEmpty then none else some ps)

/-- `Meta.pprint` without the comment part is the dependency string built by
the emitters: `name` followed by the pin if present. -/
def depStrOf (m : Meta) : String :=
  m.name ++ (match m.pin with | some p => " " ++ p | none => "")

/- ### Association lists standing in for Python dicts -/

/-- `d.get(k)` / `d[k]` on an insertion-ordered dict modeled as an
association list: the value at the first matching key. -/
def alookup {κ ν : Type} [DecidableEq κ] (l : List (κ × ν)) (k : κ) : Option ν :=
  match l with
  | [] => none
  | (k', v) :: rest => if k' = k then some v else alookup rest k

/-- `d.pop(k)` on a dict with distinct keys: drop the entries with key `k`
(order of the remaining entries is preserved, as for Python dicts). -/
def aerase {κ ν : Type} [DecidableEq κ] (l : List (κ × ν)) (k : κ) : List (κ × ν) :=
  l.filter (fun e => !(e.1 = k))

/-- The dict invariant: keys are distinct. -/
def keysNodup {κ ν : Type} (l : List (κ × ν)) : Prop := (l.map Prod.fst).Nodup

/- ### Intra-group conflict resolution -/

/-- The Python sort key `(m.pin is not None, m.pin)` compared with `<`:
an unpinned record is below any pinned one, pinned records compare by the
pin string, and two unpinned records are equal. -/
def keyLtB (a b : Meta) : Bool :=
  match a.pin, b.pin with
  | none, none => false
  | none, some _ => true
  | some _, none => false
  | some s, some t => s.data < t.data

/-- Insert into a descending-sorted list, after any element of
greater-or-equal key (matching the stability of Python's `list.sort`). -/
def insertDesc (m : Meta) : List Meta → List Meta
  | [] => [m]
  | x :: xs => if keyLtB x m then m :: x :: xs else x :: insertDesc m xs

/-- `metas.sort(key=lambda m: (m.pin is not None, m.pin), reverse=True)`:
stable descending sort by the pin key. -/
def sortMetasDesc : List Meta → List Meta
  | [] => []
  | m :: rest => insertDesc m (sortMetasDesc rest)

/-- The body of `_select_preferred_version_within_platform` for one
`(platform, ecosystem)` group: with more than one record, sort descending by
the pin key and keep the head, warning about the discarded records that
differ from it; with one record keep it; `none` only for an empty group
(unreachable: groups are built nonempty, the source would raise
`IndexError`). -/
def selectWithin (onPlatform : Option Platform) (which : CondaPip)
    (metas : List Meta) : Option (Meta × List Warn) :=
  if metas.length > 1 then
    match sortMetasDesc metas with
    | [] => none
    | selected :: rest =>
      let discarded := rest.filter (fun m => !(m = selected))
      if discarded.isEmpty then some (selected, [])
      else some (selected, [.platformConflict onPlatform which selected discarded])
  else
    match metas with
    | [] => none
    | m :: _ => some (m, [])

/-- `_select_preferred_version_within_platform`: reduce every
`(platform, ecosystem)` group to its single preferred record, collecting the
conflict warnings. -/
def selectPreferredVersionWithinPlatform
    (data : List ((Option Platform) × List (CondaPip × List Meta))) :
    List ((Option Platform) × List (CondaPip × Meta)) × List Warn :=
  data.foldl
    (fun (acc : List ((Option Platform) × List (CondaPip × Meta)) × List Warn)
        (entry : (Option Platform) × List (CondaPip × List Meta)) =>
      let inner := entry.2.foldl
        (fun (acc' : List (CondaPip × Meta) × List Warn)
            (grp : CondaPip × List Meta) =>
          match selectWithin entry.1 grp.1 grp.2 with
          | some (m, ws) => (acc'.1 ++ [(grp.1, m)], acc'.2 ++ ws)
          | none => acc')
        ([], [])
      (acc.1 ++ [(entry.1, inner.1)], acc.2 ++ inner.2))
    ([], [])

/- ### Cross-ecosystem conflict resolution -/

/-- Python truthiness of an optional pin string (`None` and `""` are falsy). -/
def pinTruthy : Option String → Bool
  | none => false
  | some s => !(s = "")

/-- `_resolve_conda_pip_conflicts`: given the surviving record per ecosystem
for one `(package, platform)` pair, keep the pinned side when exactly one
side has a (truthy) pin, keep both when the pins are equal, and keep both
with a pin-conflict warning when they differ. -/
def resolveCondaPipConflicts (sources : List (CondaPip × Meta)) :
    List (CondaPip × Meta) × List Warn :=
  match alookup sources .conda, alookup sources .pip with
  | some condaMeta, some pipMeta =>
    if pinTruthy condaMeta.pin && !pinTruthy pipMeta.pin then
      ([(.conda, condaMeta)], [])
    else if pinTruthy pipMeta.pin && !pinTruthy condaMeta.pin then
      ([(.pip, pipMeta)], [])
    else if condaMeta.pin = pipMeta.pin then
      ([(.conda, condaMeta), (.pip, pipMeta)], [])
    else
      ([(.conda, condaMeta), (.pip, pipMeta)], [.pinConflict condaMeta.pin pipMeta.pin])
  | _, _ => (sources, [])

/- ### Grouping (`_prepare_metas_for_conflict_resolution`) -/

/-- Append `m` to the `grouped[pl][which]` bucket of the nested
insertion-ordered dict (`defaultdict(lambda: defaultdict(list))`). -/
def groupInsert (grouped : List ((Option Platform) × List (CondaPip × List Meta)))
    (pl : Option Platform) (which : CondaPip) (m : Meta) :
    List ((Option Platform) × List (CondaPip × List Meta)) :=
  match grouped with
  | [] => [(pl, [(which, [m])])]
  | (pl', inner) :: rest =>
    if pl' = pl then
      (pl', (match inner with
        | [] => [(which, [m])]
        | _ => innerInsert inner)) :: rest
    else (pl', inner) :: groupInsert rest pl which m
where
  /-- Append to the per-ecosystem bucket. -/
  innerInsert : List (CondaPip × List Meta) → List (CondaPip × List Meta)
    | [] => [(which, [m])]
    | (w, ms) :: rest => if w = which then (w, ms ++ [m]) :: rest else (w, ms) :: innerInsert rest

/-- `_prepare_metas_for_conflict_resolution` for one package: group its
records by platform (wildcard `None` when `platforms()` is `None`, fanned out
over the record's platforms otherwise), then by ecosystem. -/
def prepareOnePackage (metas : List Meta) :
    Except Err (List ((Option Platform) × List (CondaPip × List Meta))) :=
  metas.foldlM
    (fun grouped m => do
      let ps ← m.platforms
      let pls : List (Option Platform) :=
        match ps with
        | none => [none]
        | some l => l.map some
      pure (pls.foldl (fun g pl => groupInsert g pl m.which m) grouped))
    []

/-- `_prepare_metas_for_conflict_resolution`: group each package's records by
platform and ecosystem. -/
def prepareMetasForConflictResolution (requirements : List (String × List Meta)) :
    Except Err (List (String × List ((Option Platform) × List (CondaPip × List Meta)))) :=
  requirements.foldlM
    (fun acc entry => do
      let grouped ← prepareOnePackage entry.2
      pure (acc ++ [(entry.1, grouped)]))
    []

/-- `resolve_conflicts`: group, select the preferred record per
`(package, platform, ecosystem)` group, then resolve conda/pip conflicts per
`(package, platform)` pair; all emitted warnings are collected. -/
def resolveConflicts (requirements : List (String × List Meta)) :
    Except Err ((List (String × List ((Option Platform) × List (CondaPip × Meta)))) × List Warn) := do
  let prepared ← prepareMetasForConflictResolution requirements
  let step := prepared.foldl
    (fun (acc : List (String × List ((Option Platform) × List (CondaPip × Meta))) × List Warn) entry =>
      let (reduced, ws) := selectPreferredVersionWithinPlatform entry.2
      (acc.1 ++ [(entry.1, reduced)], acc.2 ++ ws))
    ([], [])
  let final := step.1.foldl
    (fun (acc : List (String × List ((Option Platform) × List (CondaPip × Meta))) × List Warn) entry =>
      let inner := entry.2.foldl
        (fun (acc' : List ((Option Platform) × List (CondaPip × Meta)) × List Warn) pe =>
          let (sources, ws) := resolveCondaPipConflicts pe.2
          (acc'.1 ++ [(pe.1, sources)], acc'.2 ++ ws))
        ([], [])
      (acc.1 ++ [(entry.1, inner.1)], acc.2 ++ inner.2))
    ([], step.2)
  pure (final.1, final.2)

/- ### Wildcard expansion and conda/pip extraction -/

/-- `_maybe_expand_none`: if a package's platform map has more than one entry
and contains the wildcard key, pop the wildcard and insert its value under
every concrete platform not already present (in `get_args(Platform)` order,
new keys appended at the end as for a Python dict). -/
def maybeExpandNone {ν : Type} (platformData : List ((Option Platform) × ν)) :
    List ((Option Platform) × ν) :=
  if platformData.length > 1 then
    match alookup platformData none with
    | some sources =>
      let pd := aerase platformData none
      allPlatforms.foldl
        (fun acc p =>
          if (alookup acc (some p)).isSome then acc else acc ++ [(some p, sources)])
        pd
    | none => platformData
  else platformData

/-- `dict.setdefault(pkg, {})[platform] = meta`: set a key of the inner dict
of a nested insertion-ordered dict (both dicts append new keys at the end). -/
def nestedSet (d : List (String × List ((Option Platform) × Meta)))
    (pkg : String) (pl : Option Platform) (m : Meta) :
    List (String × List ((Option Platform) × Meta)) :=
  match d with
  | [] => [(pkg, [(pl, m)])]
  | (pkg', inner) :: rest =>
    if pkg' = pkg then (pkg', innerSet inner) :: rest
    else (pkg', inner) :: nestedSet rest pkg pl m
where
  /-- `inner[pl] = m` on the inner dict. -/
  innerSet : List ((Option Platform) × Meta) → List ((Option Platform) × Meta)
    | [] => [(pl, m)]
    | (pl', m') :: rest => if pl' = pl then (pl', m) :: rest else (pl', m') :: innerSet rest

/-- `_extract_conda_pip_dependencies`: expand wildcards, then split the
resolved requirements into a conda map and a pip map; a package/platform
whose sources contain a conda record goes to the conda map only (conda is
preferred), otherwise its pip record goes to the pip map (Python indexes
`sources["pip"]` in that branch; a platform with neither record cannot arise
from resolution and is skipped here). -/
def extractCondaPipDependencies
    (resolved : List (String × List ((Option Platform) × List (CondaPip × Meta)))) :
    (List (String × List ((Option Platform) × Meta))) ×
      (List (String × List ((Option Platform) × Meta))) :=
  resolved.foldl
    (fun (acc : _ × _) entry =>
      let pd := maybeExpandNone entry.2
      pd.foldl
        (fun (acc' : _ × _) pe =>
          match alookup pe.2 .conda with
          | some m => (nestedSet acc'.1 entry.1 pe.1 m, acc'.2)
          | none =>
            match alookup pe.2 .pip with
            | some m => (acc'.1, nestedSet acc'.2 entry.1 pe.1 m)
            | none => acc')
        acc)
    ([], [])

/- ### Coarse platform collapsing (`_resolve_multiple_platform_conflicts`) -/

/-- Append a platform to the bucket of its meta inside one coarse class of
`valid` (`defaultdict(list)` behaviour). -/
def mdInsert (m2p : List (Meta × List Platform)) (m : Meta) (p : Platform) :
    List (Meta × List Platform) :=
  match m2p with
  | [] => [(m, [p])]
  | (m', ps) :: rest =>
    if m' = m then (m', ps ++ [p]) :: rest else (m', ps) :: mdInsert rest m p

/-- `valid[conda_platform][meta].append(platform)` on the nested
insertion-ordered dict `valid`. -/
def validInsert (valid : List (CondaPlatform × List (Meta × List Platform)))
    (cp : CondaPlatform) (m : Meta) (p : Platform) :
    List (CondaPlatform × List (Meta × List Platform)) :=
  match valid with
  | [] => [(cp, [(m, [p])])]
  | (cp', m2p) :: rest =>
    if cp' = cp then (cp', mdInsert m2p m p) :: rest
    else (cp', m2p) :: validInsert rest cp m p

/-- The `valid` structure of `_resolve_multiple_platform_conflicts`: platforms
grouped by coarse conda platform, then by meta. -/
def buildValid (ptm : List (Platform × Meta)) :
    List (CondaPlatform × List (Meta × List Platform)) :=
  ptm.foldl (fun v e => validInsert v (condaSel e.1) e.2 e.1) []

/-- `platform_to_meta.pop(p)` for each `p` in `ks` (popping an absent key is
the identity, matching the guarded pops of the source). -/
def popAll (l : List (Platform × Meta)) (ks : List Platform) : List (Platform × Meta) :=
  ks.foldl (fun acc k => acc.filter (fun e => !(e.1 = k))) l

/-- `_resolve_multiple_platform_conflicts`: for each coarse conda platform,
keep only the first concrete platform of each meta (popping the rest), and
when several distinct metas map to the same coarse platform keep the first
meta only, popping the platforms of the others and warning.  Called by the
emitter only on maps without the wildcard key (the source asserts
`_platform is not None`). -/
def resolveMultiplePlatformConflicts (ptm : List (Platform × Meta)) :
    List (Platform × Meta) × List Warn :=
  let valid := buildValid ptm
  valid.foldl
    (fun (acc : List (Platform × Meta) × List Warn) centry =>
      let acc1 := centry.2.foldl (fun a me => popAll a me.2.tail) acc.1
      if centry.2.length > 1 then
        match centry.2 with
        | [] => (acc1, acc.2)
        | (firstMeta, _) :: others =>
          let acc2 := others.foldl (fun a me => popAll a me.2) acc1
          (acc2, acc.2 ++ [.condaPlatformConflict centry.1 firstMeta (others.map Prod.fst)])
      else (acc1, acc.2))
    (ptm, [])

/- ### Specification emission -/

/-- A conda dependency entry: a bare string or a `{sel(...): ...}` selector
entry (the `str | dict[str, str]` of the source, `selector="sel"` mode). -/
inductive CondaDep where
  | plain (dep : String)
  | withSel (onPlatform : CondaPlatform) (dep : String)
deriving DecidableEq

/-- `CondaEnvironmentSpec`: channels, target platforms, conda dependencies
(possibly selector-wrapped) and pip dependencies. -/
structure CondaEnvironmentSpec where
  channels : List String
  platforms : List Platform
  conda : List CondaDep
  pip : List String
deriving DecidableEq

/-- The sort key used by `sorted(platform_to_meta.items())`; a wildcard key
can only occur in a singleton map there (Python would raise comparing `None`
with a string), so its key value is immaterial. -/
def optPlatKey : Option Platform → List Char
  | none => []
  | some p => (platformStr p).data

/-- The key order for `sorted(platform_to_meta.items())`. -/
def itemLE (a b : (Option Platform) × Meta) : Prop := optPlatKey a.1 ≤ optPlatKey b.1

instance : DecidableRel itemLE := fun _ _ => by
  unfold itemLE; infer_instance

instance : IsTotal ((Option Platform) × Meta) itemLE :=
  ⟨fun a b => le_total (optPlatKey a.1) (optPlatKey b.1)⟩

instance : IsTrans ((Option Platform) × Meta) itemLE := ⟨fun _ _ _ h h' => le_trans h h'⟩

/-- `sorted(platform_to_meta.items())`. -/
def sortItems (l : List ((Option Platform) × Meta)) : List ((Option Platform) × Meta) :=
  List.insertionSort itemLE l

/-- Ascending sort of the pip dependency strings (`sorted(pip_deps)`). -/
def sortStrings (l : List String) : List String :=
  List.insertionSort (fun a b : String => a.data ≤ b.data) l

/-- `create_conda_env_specification` in its default `selector="sel"` mode
(the `"comment"` mode attaches YAML end-of-line comments and is outside this
embedding).  The platform-validation guard of the source is vacuous here
because platforms are typed.  Returns the specification together with the
collapse warnings. -/
def createCondaEnvSpecification
    (resolved : List (String × List ((Option Platform) × List (CondaPip × Meta))))
    (channels : List String) (platforms : List Platform) :
    CondaEnvironmentSpec × List Warn :=
  let (conda, pip) := extractCondaPipDependencies resolved
  let condaStep := conda.foldl
    (fun (acc : List CondaDep × List Warn) entry =>
      let (platformToMeta, ws) :=
        if entry.2.length > 1 then
          -- the wildcard has been expanded already when there is more than one key
          let concrete := entry.2.filterMap
            (fun e => match e.1 with | some p => some (p, e.2) | none => none)
          let (r, w) := resolveMultiplePlatformConflicts concrete
          (r.map (fun e => ((some e.1 : Option Platform), e.2)), w)
        else (entry.2, [])
      let deps := (sortItems platformToMeta).foldl
        (fun (ds : List CondaDep) pe =>
          if pe.1.isSome && !platforms.isEmpty && !(pe.1.map platforms.contains).getD false then
            ds
          else
            let depStr := depStrOf pe.2
            match pe.1 with
            | some p =>
              if platforms.length ≠ 1 then ds ++ [.withSel (condaSel p) depStr]
              else ds ++ [.plain depStr]
            | none => ds ++ [.plain depStr])
        acc.1
      (deps, acc.2 ++ ws))
    ([], [])
  let pipDeps := pip.foldl
    (fun (ps : List String) entry =>
      let metaToPlatforms := entry.2.foldl
        (fun (mp : List (Meta × List (Option Platform))) pe => mdInsertOpt mp pe.2 pe.1)
        []
      metaToPlatforms.foldl
        (fun ps me =>
          let depStr := depStrOf me.1
          if me.2 = [none] then ps ++ [depStr]
          else
            -- platform lists other than `[None]` contain no wildcard here:
            -- the wildcard key only survives expansion as the sole key
            let marker := buildPep508EnvironmentMarker (me.2.filterMap id)
            ps ++ [depStr ++ "; " ++ marker])
        ps)
    []
  (⟨channels, platforms, condaStep.1, pipDeps⟩, condaStep.2)
where
  /-- `meta_to_platforms.setdefault(meta, []).append(platform)`. -/
  mdInsertOpt (mp : List (Meta × List (Option Platform))) (m : Meta) (pl : Option Platform) :
      List (Meta × List (Option Platform)) :=
    match mp with
    | [] => [(m, [pl])]
    | (m', pls) :: rest =>
      if m' = m then (m', pls ++ [pl]) :: rest else (m', pls) :: mdInsertOpt rest m pl

/-- `filter_python_dependencies`: expand wildcards, collect each package's
surviving pip records per platform (restricted to `platforms` when given);
if all collected records are equal emit one string, with a combined
environment marker when the last-iterated platform key is concrete
(the source reads the leaked loop variable `_platform` for this test);
otherwise emit one per-platform string with a singleton marker.  The result
is sorted. -/
def filterPythonDependencies
    (resolved : List (String × List ((Option Platform) × List (CondaPip × Meta))))
    (platforms : Option (List Platform)) : List String :=
  let pipDeps := resolved.foldl
    (fun (acc : List String) entry =>
      let pd := maybeExpandNone entry.2
      let toProcess := pd.foldl
        (fun (tp : List ((Option Platform) × Meta)) pe =>
          if (pe.1.map (fun p => (platforms.map (fun l => !l.contains p)).getD false)).getD false then
            tp
          else
            match alookup pe.2 .pip with
            | some m => tp ++ [(pe.1, m)]
            | none => tp)
        []
      let lastPlat := (pd.map Prod.fst).getLast?
      match toProcess with
      | [] => acc
      | (_, firstMeta) :: _ =>
        if toProcess.all (fun e => e.2 = firstMeta) then
          let depStr := depStrOf firstMeta
          match lastPlat with
          | some (some _) =>
            let marker := buildPep508EnvironmentMarker ((toProcess.map Prod.fst).filterMap id)
            acc ++ [depStr ++ "; " ++ marker]
          | _ => acc ++ [depStr]
        else
          toProcess.foldl
            (fun acc' pe =>
              let depStr := depStrOf pe.2
              match pe.1 with
              | some p => acc' ++ [depStr ++ "; " ++ buildPep508EnvironmentMarker [p]]
              | none => acc' ++ [depStr])
            acc)
    []
  sortStrings pipDeps

/- ### Claim theorems -/

set_option maxRecDepth 10000

/-- C1, counterexample.  For the input of exactly two unpinned wildcard
`requests` records (one conda, one pip), the emitted conda environment
specification has `requests` in its conda dependency list but its **pip
dependency list is empty**, contradicting the claim that a `requests` entry
appears in the pip list: `_extract_conda_pip_dependencies` sends a
package/platform with a conda record to the conda side only. -/
theorem C1_counterexample :
    (resolveConflicts
        [("requests", [{ name := "requests", which := .conda },
                       { name := "requests", which := .pip }])]).map
      (fun r => ((createCondaEnvSpecification r.1 [] []).1.conda,
                 (createCondaEnvSpecification r.1 [] []).1.pip))
      = .ok ([.plain "requests"], []) := by rfl

/-- C1, amended.  For an input containing exactly two unpinned records for
the package `requests`, one conda and one pip, both with the wildcard
platform, the cross-ecosystem resolver keeps both records (with no warning),
and the emitted conda environment specification contains a `requests` entry
in the conda dependency list while the pip dependency list is empty, because
the emitter prefers conda when both ecosystems provide the package. -/
theorem C1_amended :
    resolveConflicts
        [("requests", [{ name := "requests", which := .conda },
                       { name := "requests", which := .pip }])]
      = .ok ([("requests",
               [(none, [(.conda, { name := "requests", which := .conda }),
                        (.pip, { name := "requests", which := .pip })])])], []) ∧
    (resolveConflicts
        [("requests", [{ name := "requests", which := .conda },
                       { name := "requests", which := .pip }])]).map
      (fun r => (createCondaEnvSpecification r.1 [] []).1)
      = .ok ⟨[], [], [.plain "requests"], []⟩ := ⟨rfl, rfl⟩

/-- C2, counterexample.  A dependency declared with the same name and pin on
every concrete platform (the same record under all six platform keys) does
**not** serialize unconditionally: the pip output string carries a PEP 508
environment marker (the six per-platform markers joined with `or`; the full
six-platform set is not a key of `PEP508_MARKERS`), and the conda output
consists of selector-wrapped entries, one per coarse platform class. -/
theorem C2_counterexample :
    (filterPythonDependencies
        [("foo", allPlatforms.map
            (fun p => (some p, [(.pip, { name := "foo", which := .pip, pin := some ">=1" })])))]
        none
      = ["foo >=1; sys_platform == 'linux' and platform_machine == 'x86_64' or sys_platform == 'linux' and platform_machine == 'aarch64' or sys_platform == 'linux' and platform_machine == 'ppc64le' or sys_platform == 'darwin' and platform_machine == 'x86_64' or sys_platform == 'darwin' and platform_machine == 'arm64' or sys_platform == 'win32' and platform_machine == 'AMD64'"]) ∧
    ((createCondaEnvSpecification
        [("foo", allPlatforms.map
            (fun p => (some p, [(.conda, { name := "foo", which := .conda, pin := some ">=1" })])))]
        [] []).1.conda
      = [.withSel .linux "foo >=1", .withSel .osx "foo >=1", .withSel .win "foo >=1"]) := by
  exact ⟨by decide, by decide⟩

/-- C2, amended.  A dependency declared for every platform **via the
wildcard** (platform restriction absent, which is how "applies to every
target platform" is represented) serializes as a single unconditional entry
in both ecosystems: the pip output string is exactly `name[ pin]` with no
environment marker, and the conda output entry is a bare string with no
platform selector. -/
theorem C2_amended (nm : String) (pin : Option String) :
    filterPythonDependencies
        [(nm, [(none, [(.pip, { name := nm, which := .pip, pin := pin })])])] none
      = [depStrOf { name := nm, which := .pip, pin := pin }] ∧
    (createCondaEnvSpecification
        [(nm, [(none, [(.conda, { name := nm, which := .conda, pin := pin })])])] [] []).1.conda
      = [.plain (depStrOf { name := nm, which := .conda, pin := pin })] := by
  constructor
  · simp [filterPythonDependencies, maybeExpandNone, alookup, sortStrings,
      List.insertionSort, depStrOf]
  · simp [createCondaEnvSpecification, extractCondaPipDependencies, maybeExpandNone,
      alookup, nestedSet, nestedSet.innerSet, sortItems, List.insertionSort, depStrOf]

/-- Sorting platforms is invariant under permutation of the input (sorted
permutations of the same multiset coincide, as `platLE` is antisymmetric). -/
theorem sortPlatforms_perm_eq {l₁ l₂ : List Platform} (h : l₁.Perm l₂) :
    sortPlatforms l₁ = sortPlatforms l₂ :=
  @List.eq_of_perm_of_sorted Platform platLE _ _ _
    ((List.perm_insertionSort platLE l₁).trans (h.trans (List.perm_insertionSort platLE l₂).symm))
    (List.sorted_insertionSort platLE l₁)
    (List.sorted_insertionSort platLE l₂)

/-- C10, counterexample.  The PEP 508 marker builder does not return the
coarse `linux` marker for every list whose underlying **set** is the linux
coarse group: a list with a duplicated platform misses the tuple-key lookup
(`sorted` keeps duplicates) and yields a disjunction of per-platform markers
instead. -/
theorem C10_counterexample :
    buildPep508EnvironmentMarker [.linux64, .linux64, .linuxAarch64, .linuxPpc64le]
      ≠ "sys_platform == 'linux'" := by decide

/-- C10, amended.  The PEP 508 environment-marker builder is invariant under
permutation of its input list, and for a **duplicate-free** input list whose
underlying set is exactly a coarse group with a dedicated marker (i.e. a
permutation of the linux trio, the osx pair, or the linux+osx five) it
returns that group's single coarse marker. -/
theorem C10_amended (l₁ l₂ : List Platform) (h : l₁.Perm l₂) :
    buildPep508EnvironmentMarker l₁ = buildPep508EnvironmentMarker l₂ ∧
    (l₁.Perm [.linux64, .linuxAarch64, .linuxPpc64le] →
      buildPep508EnvironmentMarker l₁ = "sys_platform == 'linux'") ∧
    (l₁.Perm [.osx64, .osxArm64] →
      buildPep508EnvironmentMarker l₁ = "sys_platform == 'darwin'") ∧
    (l₁.Perm [.linux64, .linuxAarch64, .linuxPpc64le, .osx64, .osxArm64] →
      buildPep508EnvironmentMarker l₁ =
        "sys_platform == 'linux' or sys_platform == 'darwin'") := by
  refine ⟨?_, ?_, ?_, ?_⟩
  · unfold buildPep508EnvironmentMarker
    rw [sortPlatforms_perm_eq h]
  all_goals intro hp
  all_goals unfold buildPep508EnvironmentMarker
  all_goals rw [sortPlatforms_perm_eq hp]
  all_goals rfl

/-- C10, witness for the amended theorem: a reversed linux trio is
marker-equal to a rotated one and yields the coarse linux marker. -/
theorem C10_amended_witness :
    buildPep508EnvironmentMarker [.linuxPpc64le, .linux64, .linuxAarch64]
      = buildPep508EnvironmentMarker [.linux64, .linuxPpc64le, .linuxAarch64] ∧
    buildPep508EnvironmentMarker [.linuxPpc64le, .linux64, .linuxAarch64]
      = "sys_platform == 'linux'" := by
  have h := C10_amended [.linuxPpc64le, .linux64, .linuxAarch64]
    [.linux64, .linuxPpc64le, .linuxAarch64] (by decide)
  exact ⟨h.1, h.2.1 (by decide)⟩

/- ### Order facts for the intra-group sort key -/

theorem keyLtB_irrefl (a : Meta) : keyLtB a a = false := by
  unfold keyLtB
  cases a.pin with
  | none => rfl
  | some s => simp [lt_irrefl]

theorem keyLtB_asymm {a b : Meta} (h : keyLtB a b = true) : keyLtB b a = false := by
  unfold keyLtB at h ⊢
  cases ha : a.pin <;> cases hb : b.pin <;> simp [ha, hb] at h ⊢ <;>
    exact le_of_lt h

theorem keyLtB_neg_trans {a b c : Meta} (hab : keyLtB a b = false)
    (hbc : keyLtB b c = false) : keyLtB a c = false := by
  unfold keyLtB at hab hbc ⊢
  cases ha : a.pin <;> cases hb : b.pin <;> cases hc : c.pin <;>
    simp [ha, hb, hc] at hab hbc ⊢
  exact le_trans hbc hab

theorem insertDesc_perm (m : Meta) (l : List Meta) : (insertDesc m l).Perm (m :: l) := by
  induction l with
  | nil => rfl
  | cons x xs ih =>
    unfold insertDesc
    by_cases h : keyLtB x m = true
    · simp [h]
    · simp only [h, if_false, Bool.false_eq_true]
      exact (ih.cons x).trans (List.Perm.swap m x xs)

theorem sortMetasDesc_perm (l : List Meta) : (sortMetasDesc l).Perm l := by
  induction l with
  | nil => rfl
  | cons m rest ih =>
    unfold sortMetasDesc
    exact (insertDesc_perm m (sortMetasDesc rest)).trans (ih.cons m)

/-- Descending sortedness: no later element has a strictly greater key. -/
def DescSorted (l : List Meta) : Prop := l.Pairwise (fun a b => keyLtB a b = false)

theorem insertDesc_sorted {l : List Meta} (m : Meta) (h : DescSorted l) :
    DescSorted (insertDesc m l) := by
  induction l with
  | nil => exact List.pairwise_singleton _ m
  | cons x xs ih =>
    unfold insertDesc
    rcases List.pairwise_cons.mp h with ⟨hx, hxs⟩
    by_cases hk : keyLtB x m = true
    · simp only [hk, if_true]
      refine List.pairwise_cons.mpr ⟨?_, h⟩
      intro b hb
      rcases List.mem_cons.mp hb with rfl | hb'
      · exact keyLtB_asymm hk
      · exact keyLtB_neg_trans (keyLtB_asymm hk) (hx b hb')
    · simp only [hk, if_false, Bool.false_eq_true]
      refine List.pairwise_cons.mpr ⟨?_, ih hxs⟩
      intro b hb
      have hb' := (insertDesc_perm m xs).mem_iff.mp hb
      rcases List.mem_cons.mp hb' with rfl | hb''
      · exact Bool.eq_false_iff.mpr hk
      · exact hx b hb''

theorem sortMetasDesc_sorted (l : List Meta) : DescSorted (sortMetasDesc l) := by
  induction l with
  | nil => exact List.Pairwise.nil
  | cons m rest ih => exact insertDesc_sorted m ih

/-- The head of the descending sort is key-maximal among the group. -/
theorem sortMetasDesc_head_max {metas : List Meta} {sel : Meta} {rest : List Meta}
    (hsort : sortMetasDesc metas = sel :: rest) :
    sel ∈ metas ∧ ∀ m ∈ metas, keyLtB sel m = false := by
  constructor
  · have : sel ∈ sel :: rest := List.mem_cons_self sel rest
    rw [← hsort] at this
    exact (sortMetasDesc_perm metas).mem_iff.mp this
  · intro m hm
    have hm' : m ∈ sel :: rest := by
      rw [← hsort]
      exact ((sortMetasDesc_perm metas).symm.mem_iff).mp hm
    rcases List.mem_cons.mp hm' with rfl | hm''
    · exact keyLtB_irrefl _
    · have hs := sortMetasDesc_sorted metas
      rw [hsort] at hs
      exact (List.pairwise_cons.mp hs).1 m hm''

/-- C3.  For a group of two or more records sharing `(name, platform,
ecosystem)`, the intra-group resolver outputs exactly one record, which is
key-maximal under the descending order on `(has a pin, pin string)`: no
group member has a strictly greater key, any pinned member forces the
survivor to be pinned, and no pinned member's pin string exceeds the
survivor's pin string in the lexicographic string order (so e.g. `>=2`
beats `>=10`). -/
theorem C3_intra_group_max (pl : Option Platform) (w : CondaPip) (metas : List Meta)
    (hlen : 2 ≤ metas.length) :
    (∃ r, selectWithin pl w metas = some r) ∧
    ∀ selected warns, selectWithin pl w metas = some (selected, warns) →
      selected ∈ metas ∧
      (∀ m ∈ metas, keyLtB selected m = false) ∧
      ((∃ m ∈ metas, m.pin.isSome) → selected.pin.isSome) ∧
      (∀ m ∈ metas, ∀ s t, m.pin = some s → selected.pin = some t →
        ¬ t.data < s.data) := by
  have hgt : metas.length > 1 := hlen
  obtain ⟨sel, rest, hsort⟩ : ∃ sel rest, sortMetasDesc metas = sel :: rest := by
    cases h : sortMetasDesc metas with
    | nil =>
      exfalso
      have hl := (sortMetasDesc_perm metas).length_eq
      rw [h] at hl
      simp at hl
      omega
    | cons sel rest => exact ⟨sel, rest, rfl⟩
  obtain ⟨hmem, hmax⟩ := sortMetasDesc_head_max hsort
  have heq : ∀ warns', selectWithin pl w metas = some (sel, warns') →
      sel ∈ metas ∧
      (∀ m ∈ metas, keyLtB sel m = false) ∧
      ((∃ m ∈ metas, m.pin.isSome) → sel.pin.isSome) ∧
      (∀ m ∈ metas, ∀ s t, m.pin = some s → sel.pin = some t → ¬ t.data < s.data) := by
    intro warns' _
    refine ⟨hmem, hmax, ?_, ?_⟩
    · rintro ⟨m, hm, hpin⟩
      have h1 := hmax m hm
      unfold keyLtB at h1
      cases hsel : sel.pin <;> cases hmp : m.pin <;>
        simp [hsel, hmp] at h1 hpin ⊢
    · intro m hm s t hms hts
      have h1 := hmax m hm
      unfold keyLtB at h1
      rw [hts, hms] at h1
      simpa using h1
  have hshape : ∃ warns, selectWithin pl w metas = some (sel, warns) := by
    unfold selectWithin
    simp only [hgt, if_pos, hsort]
    by_cases hd : (rest.filter (fun m => !decide (m = sel))).isEmpty = true
    · exact ⟨[], by simp [hd]⟩
    · refine ⟨[.platformConflict pl w sel (rest.filter (fun m => !decide (m = sel)))], ?_⟩
      simp [hd]
  obtain ⟨warns, hw⟩ := hshape
  refine ⟨⟨(sel, warns), hw⟩, ?_⟩
  intro selected warns' hw'
  have hsw : selected = sel ∧ warns' = warns := by
    rw [hw] at hw'
    injection hw' with h1
    exact ⟨(congrArg Prod.fst h1).symm, (congrArg Prod.snd h1).symm⟩
  obtain ⟨rfl, rfl⟩ := hsw
  exact heq warns' hw

/-- C3, witness: among an unpinned record and records pinned `>=10` and
`>=2`, the survivor of the group is the record pinned `>=2` (the
lexicographically greatest pin), and it is key-maximal. -/
theorem C3_witness :
    ({ name := "x", which := .conda, pin := some ">=2" } : Meta) ∈
        ([{ name := "x", which := .conda },
          { name := "x", which := .conda, pin := some ">=10" },
          { name := "x", which := .conda, pin := some ">=2" }] : List Meta) ∧
    ∀ m ∈ ([{ name := "x", which := .conda },
            { name := "x", which := .conda, pin := some ">=10" },
            { name := "x", which := .conda, pin := some ">=2" }] : List Meta),
      keyLtB { name := "x", which := .conda, pin := some ">=2" } m = false := by
  have h := (C3_intra_group_max none .conda
      [{ name := "x", which := .conda },
       { name := "x", which := .conda, pin := some ">=10" },
       { name := "x", which := .conda, pin := some ">=2" }] (by decide)).2
      { name := "x", which := .conda, pin := some ">=2" }
      [.platformConflict none .conda { name := "x", which := .conda, pin := some ">=2" }
        [{ name := "x", which := .conda, pin := some ">=10" },
         { name := "x", which := .conda }]]
      (by decide)
  exact ⟨h.1, h.2.1⟩

/-- C5, counterexample.  A group of two byte-identical records is reduced to
one record — so one copy is discarded — yet no warning is emitted: the
source filters records equal to the survivor out of the reported discard
list (`if m != selected_meta`), so this discard goes unreported,
contradicting "every discarded record is reported". -/
theorem C5_counterexample :
    selectWithin none .conda
        [{ name := "numpy", which := .conda }, { name := "numpy", which := .conda }]
      = some ({ name := "numpy", which := .conda }, []) := by rfl

/-- C5, amended.  Whenever the intra-group resolver discards records from a
group of two or more, every discarded record **that differs from the
surviving record** is reported in the structured warning naming the
surviving record, the discarded ones and the platform scope (`none` is the
wildcard, rendered "all platforms"); records identical to the survivor are
deduplicated silently.  Processing always continues (the resolver totally
returns a survivor). -/
theorem C5_amended (pl : Option Platform) (w : CondaPip) (metas : List Meta)
    (hlen : 2 ≤ metas.length) :
    ∀ selected warns, selectWithin pl w metas = some (selected, warns) →
      ∀ m ∈ metas, m ≠ selected →
        ∃ discarded, warns = [.platformConflict pl w selected discarded] ∧
          m ∈ discarded := by
  intro selected warns hw m hm hne
  have hgt : metas.length > 1 := hlen
  unfold selectWithin at hw
  simp only [hgt, if_pos] at hw
  cases hsort : sortMetasDesc metas with
  | nil =>
    rw [hsort] at hw
    exact absurd hw (by simp)
  | cons sel rest =>
    rw [hsort] at hw
    dsimp only at hw
    have hmemrest : m ∈ sel :: rest := by
      rw [← hsort]
      exact ((sortMetasDesc_perm metas).symm.mem_iff).mp hm
    by_cases hd : (rest.filter (fun x => !decide (x = sel))).isEmpty = true
    · exfalso
      rw [if_pos hd] at hw
      injection hw with h1
      have hsel : selected = sel := (congrArg Prod.fst h1).symm
      have hfil : rest.filter (fun x => !decide (x = sel)) = [] :=
        List.isEmpty_iff.mp hd
      rcases List.mem_cons.mp hmemrest with rfl | hmr
      · exact hne hsel.symm
      · have := List.filter_eq_nil_iff.mp hfil m hmr
        simp at this
        exact hne (by rw [hsel, this])
    · rw [if_neg hd] at hw
      injection hw with h1
      have hsel : selected = sel := (congrArg Prod.fst h1).symm
      have hwarns : warns
          = [Warn.platformConflict pl w sel (rest.filter (fun x => !decide (x = sel)))] :=
        (congrArg Prod.snd h1).symm
      refine ⟨rest.filter (fun x => !decide (x = sel)), ?_, ?_⟩
      · rw [hwarns, hsel]
      · rcases List.mem_cons.mp hmemrest with rfl | hmr
        · exact absurd hsel.symm hne
        · refine List.mem_filter.mpr ⟨hmr, ?_⟩
          simp
          intro h2
          exact hne (by rw [hsel, h2])

/-- C5, witness for the amended theorem: in a two-record group with distinct
records, the discarded (unpinned) record appears in the emitted warning. -/
theorem C5_amended_witness :
    ∃ discarded,
      ([Warn.platformConflict none .conda { name := "a", which := .conda, pin := some "==1" }
          [{ name := "a", which := .conda }]] : List Warn)
        = [.platformConflict none .conda { name := "a", which := .conda, pin := some "==1" } discarded] ∧
      ({ name := "a", which := .conda } : Meta) ∈ discarded := by
  exact C5_amended none .conda
    [{ name := "a", which := .conda }, { name := "a", which := .conda, pin := some "==1" }]
    (by decide)
    { name := "a", which := .conda, pin := some "==1" }
    [.platformConflict none .conda { name := "a", which := .conda, pin := some "==1" }
      [{ name := "a", which := .conda }]]
    (by decide)
    { name := "a", which := .conda } (by decide) (by decide)

/-- C4.  Cross-ecosystem resolution for a `(name, platform)` pair with both
a conda and a pip survivor (for records whose pins are well-formed, i.e.
never the empty string, as produced by the parser): if exactly one side has
a pin that side is kept and the other dropped with no warning; equal pins
(including both unset) keep both with no warning; two different present pins
keep both and emit the structured pin-conflict warning. -/
theorem C4_cross_ecosystem (cm pm : Meta)
    (hc : cm.pin ≠ some "") (hp : pm.pin ≠ some "") :
    ((cm.pin.isSome ∧ pm.pin = none →
        resolveCondaPipConflicts [(.conda, cm), (.pip, pm)] = ([(.conda, cm)], [])) ∧
     (pm.pin.isSome ∧ cm.pin = none →
        resolveCondaPipConflicts [(.conda, cm), (.pip, pm)] = ([(.pip, pm)], [])) ∧
     (cm.pin = pm.pin →
        resolveCondaPipConflicts [(.conda, cm), (.pip, pm)]
          = ([(.conda, cm), (.pip, pm)], [])) ∧
     (cm.pin ≠ pm.pin → cm.pin.isSome → pm.pin.isSome →
        resolveCondaPipConflicts [(.conda, cm), (.pip, pm)]
          = ([(.conda, cm), (.pip, pm)], [.pinConflict cm.pin pm.pin]))) := by
  have hcc : alookup [((.conda : CondaPip), cm), (.pip, pm)] .conda = some cm := rfl
  have hpp : alookup [((.conda : CondaPip), cm), (.pip, pm)] .pip = some pm := rfl
  refine ⟨?_, ?_, ?_, ?_⟩
  · rintro ⟨h1, h2⟩
    obtain ⟨s, hs⟩ := Option.isSome_iff_exists.mp h1
    have hsne : s ≠ "" := fun h => hc (by rw [hs, h])
    have hct : pinTruthy cm.pin = true := by rw [hs]; simp [pinTruthy, hsne]
    have hpf : pinTruthy pm.pin = false := by rw [h2]; rfl
    unfold resolveCondaPipConflicts
    rw [hcc, hpp]
    simp [hct, hpf]
  · rintro ⟨h1, h2⟩
    obtain ⟨s, hs⟩ := Option.isSome_iff_exists.mp h1
    have hsne : s ≠ "" := fun h => hp (by rw [hs, h])
    have hpt : pinTruthy pm.pin = true := by rw [hs]; simp [pinTruthy, hsne]
    have hcf : pinTruthy cm.pin = false := by rw [h2]; rfl
    unfold resolveCondaPipConflicts
    rw [hcc, hpp]
    simp [hpt, hcf]
  · intro h3
    unfold resolveCondaPipConflicts
    rw [hcc, hpp]
    simp [h3]
  · intro hne h4 h5
    obtain ⟨s, hs⟩ := Option.isSome_iff_exists.mp h4
    obtain ⟨t, ht⟩ := Option.isSome_iff_exists.mp h5
    have hsne : s ≠ "" := fun h => hc (by rw [hs, h])
    have htne : t ≠ "" := fun h => hp (by rw [ht, h])
    have hct : pinTruthy cm.pin = true := by rw [hs]; simp [pinTruthy, hsne]
    have hpt : pinTruthy pm.pin = true := by rw [ht]; simp [pinTruthy, htne]
    unfold resolveCondaPipConflicts
    rw [hcc, hpp]
    simp [hct, hpt, hne]

/-- C4, witness: the Scenario-D pandas pins (`>=1.1.0` conda vs `<2.0` pip)
fire the pin-conflict warning with both records retained, and a pinned conda
record beats an unpinned pip record silently. -/
theorem C4_witness :
    resolveCondaPipConflicts
        [(.conda, { name := "pandas", which := .conda, pin := some ">=1.1.0" }),
         (.pip, { name := "pandas", which := .pip, pin := some "<2.0" })]
      = ([(.conda, { name := "pandas", which := .conda, pin := some ">=1.1.0" }),
          (.pip, { name := "pandas", which := .pip, pin := some "<2.0" })],
         [.pinConflict (some ">=1.1.0") (some "<2.0")]) ∧
    resolveCondaPipConflicts
        [(.conda, { name := "requests", which := .conda, pin := some ">=2" }),
         (.pip, { name := "requests", which := .pip })]
      = ([(.conda, { name := "requests", which := .conda, pin := some ">=2" })], []) := by
  constructor
  · exact (C4_cross_ecosystem
      { name := "pandas", which := .conda, pin := some ">=1.1.0" }
      { name := "pandas", which := .pip, pin := some "<2.0" }
      (by decide) (by decide)).2.2.2 (by decide) (by decide) (by decide)
  · exact (C4_cross_ecosystem
      { name := "requests", which := .conda, pin := some ">=2" }
      { name := "requests", which := .pip }
      (by decide) (by decide)).1 ⟨by decide, rfl⟩

/- ### C9: comments whose selectors resolve to no platforms -/

/-- A line with no multiple-bracket pattern contributes nothing when it has
no bracketed selector group, or when its group splits into no tokens (a
whitespace-only group): the token loop runs over an empty list. -/
theorem extractLine_ok_of_no_tokens (comment : List Char) (acc : List Platform)
    (line : List Char) (hmb : multiBracket line = false)
    (hg : findSelGroup line = none ∨
      ∃ g, findSelGroup line = some g ∧ splitWs g = []) :
    extractLine comment acc line = .ok acc := by
  unfold extractLine
  rw [hmb]
  rcases hg with hg | ⟨g, hg, hsw⟩
  · rw [hg]
    rfl
  · rw [hg]
    dsimp only
    rw [hsw]
    rfl

theorem foldlM_extractLine_ok (comment : List Char) (lines : List (List Char))
    (acc : List Platform)
    (h : ∀ line ∈ lines, multiBracket line = false ∧
      (findSelGroup line = none ∨
        ∃ g, findSelGroup line = some g ∧ splitWs g = [])) :
    lines.foldlM (extractLine comment) acc = .ok acc := by
  induction lines generalizing acc with
  | nil => rfl
  | cons l ls ih =>
    have h1 := h l (List.mem_cons_self l ls)
    rw [List.foldlM_cons, extractLine_ok_of_no_tokens comment acc l h1.1 h1.2]
    exact ih acc (fun line hl => h line (List.mem_cons_of_mem l hl))

/-- C9, counterexample.  A record whose comment contains **no bracketed
selector group** does not always get `platforms() = None`: the comment
`#a]b[c` has no selector group on its only line, yet `platforms()` raises
the multiple-bracket error (the line matches the source's `#.*\].*\[`
detector), so the record does not behave like a wildcard record. -/
theorem C9_counterexample :
    (∀ line ∈ splitlines ("#a]b[c".toList), findSelGroup line = none) ∧
    Meta.platforms { name := "x", which := .pip, comment := some "#a]b[c", pin := none }
      = .error (.multipleBrackets ("#a]b[c".toList)) := by
  exact ⟨by decide, rfl⟩

/-- C9, amended.  A record whose comment is present but has, on every line,
no match of the multiple-bracket error pattern and either no bracketed
selector group or a selector group whose whitespace-split token list is
empty (so the selector tokens resolve to the empty set of platforms) has
`platforms() = None`: it behaves exactly like a wildcard record,
identically to a record with no comment at all. -/
theorem C9_amended (nm : String) (w : CondaPip) (pin : Option String)
    (c : String)
    (h : ∀ line ∈ splitlines c.toList, multiBracket line = false ∧
      (findSelGroup line = none ∨
        ∃ g, findSelGroup line = some g ∧ splitWs g = [])) :
    Meta.platforms { name := nm, which := w, comment := some c, pin := pin } = .ok none ∧
    Meta.platforms { name := nm, which := w, comment := some c, pin := pin }
      = Meta.platforms { name := nm, which := w, comment := none, pin := pin } := by
  have hext : extractMatchingPlatforms c = .ok [] := by
    unfold extractMatchingPlatforms extractMatchingPlatformsL
    exact foldlM_extractLine_ok c.toList (splitlines c.toList) [] h
  constructor
  · simp [Meta.platforms, hext]
  · simp [Meta.platforms, hext]
    rfl

/-- C9, witness for the amended theorem: a comment whose first line has a
whitespace-only bracket group and whose second line has no group at all
yields the wildcard, equal to the no-comment record's platforms. -/
theorem C9_amended_witness :
    Meta.platforms
        { name := "x", which := .pip, comment := some "# [ ]\n# plain words", pin := none }
      = .ok none ∧
    Meta.platforms
        { name := "x", which := .pip, comment := some "# [ ]\n# plain words", pin := none }
      = Meta.platforms { name := "x", which := .pip, comment := none, pin := none } :=
  C9_amended "x" .pip none "# [ ]\n# plain words" (by decide)

/- ### C6 association-list lemmas -/

theorem alookup_nil {κ ν : Type} [DecidableEq κ] (k : κ) :
    alookup ([] : List (κ × ν)) k = none := rfl

theorem alookup_cons {κ ν : Type} [DecidableEq κ] (k' : κ) (v : ν)
    (rest : List (κ × ν)) (k : κ) :
    alookup ((k', v) :: rest) k = if k' = k then some v else alookup rest k := rfl

theorem alookup_append {κ ν : Type} [DecidableEq κ] (l₁ l₂ : List (κ × ν)) (k : κ) :
    alookup (l₁ ++ l₂) k
      = match alookup l₁ k with
        | some v => some v
        | none => alookup l₂ k := by
  induction l₁ with
  | nil => simp [alookup_nil]
  | cons e rest ih =>
    obtain ⟨k', v⟩ := e
    rw [List.cons_append, alookup_cons, alookup_cons]
    by_cases h : k' = k
    · simp [h]
    · simp [h, ih]

theorem alookup_aerase_self {κ ν : Type} [DecidableEq κ] (l : List (κ × ν)) (k : κ) :
    alookup (aerase l k) k = none := by
  induction l with
  | nil => rfl
  | cons e rest ih =>
    obtain ⟨k', v⟩ := e
    by_cases h : k' = k
    · simpa [aerase, h] using ih
    · have he : aerase ((k', v) :: rest) k = (k', v) :: aerase rest k := by
        simp [aerase, h]
      rw [he, alookup_cons, if_neg h]
      exact ih

theorem alookup_aerase_ne {κ ν : Type} [DecidableEq κ] (l : List (κ × ν)) (k k' : κ)
    (h : k' ≠ k) : alookup (aerase l k) k' = alookup l k' := by
  induction l with
  | nil => rfl
  | cons e rest ih =>
    obtain ⟨k₀, v⟩ := e
    by_cases h0 : k₀ = k
    · subst h0
      have he : aerase ((k₀, v) :: rest) k₀ = aerase rest k₀ := by simp [aerase]
      rw [he, ih, alookup_cons, if_neg (fun he' => h he'.symm)]
    · have he : aerase ((k₀, v) :: rest) k = (k₀, v) :: aerase rest k := by
        simp [aerase, h0]
      rw [he, alookup_cons, alookup_cons, ih]

theorem mem_keys_of_alookup {κ ν : Type} [DecidableEq κ] {l : List (κ × ν)} {k : κ} {v : ν}
    (h : alookup l k = some v) : k ∈ l.map Prod.fst := by
  induction l with
  | nil => exact absurd h (by simp [alookup_nil])
  | cons e rest ih =>
    obtain ⟨k', v'⟩ := e
    by_cases h0 : k' = k
    · simp [h0]
    · rw [alookup_cons, if_neg h0] at h
      simp [ih h]

theorem two_le_length_of_mem_ne {α : Type} {l : List α} {a b : α}
    (ha : a ∈ l) (hb : b ∈ l) (hne : a ≠ b) : 2 ≤ l.length := by
  cases l with
  | nil => simp at ha
  | cons x xs =>
    cases xs with
    | nil =>
      rw [List.mem_singleton] at ha hb
      exact absurd (ha.trans hb.symm) hne
    | cons y ys => simp

/-- Lookup of a concrete-platform key already present in the accumulator is
unchanged by the wildcard-expansion fold. -/
theorem expandFold_lookup_some {ν : Type} (src : ν) (ps : List Platform)
    (acc : List ((Option Platform) × ν)) (q : Platform) {v : ν}
    (h : alookup acc (some q) = some v) :
    alookup
      (ps.foldl
        (fun acc p => if (alookup acc (some p)).isSome then acc else acc ++ [(some p, src)])
        acc) (some q) = some v := by
  induction ps generalizing acc with
  | nil => exact h
  | cons p ps ih =>
    simp only [List.foldl_cons]
    by_cases hp : (alookup acc (some p)).isSome
    · rw [if_pos hp]
      exact ih acc h
    · rw [if_neg hp]
      refine ih _ ?_
      rw [alookup_append, h]

/-- Lookup of an absent concrete-platform key after the wildcard-expansion
fold: the wildcard's value if the platform is in the fold's list. -/
theorem expandFold_lookup_none {ν : Type} (src : ν) (ps : List Platform)
    (acc : List ((Option Platform) × ν)) (q : Platform)
    (h : alookup acc (some q) = none) :
    alookup
      (ps.foldl
        (fun acc p => if (alookup acc (some p)).isSome then acc else acc ++ [(some p, src)])
        acc) (some q) = if q ∈ ps then some src else none := by
  induction ps generalizing acc with
  | nil => simpa using h
  | cons p ps ih =>
    simp only [List.foldl_cons]
    by_cases hq : q = p
    · subst hq
      rw [if_neg (by rw [h]; simp)]
      have hstep : alookup (acc ++ [(some q, src)]) (some q) = some src := by
        rw [alookup_append, h]
        simp [alookup_cons]
      rw [expandFold_lookup_some src ps _ q hstep,
        if_pos (List.mem_cons_self q ps)]
    · have hrhs : (if q ∈ p :: ps then some src else none)
          = (if q ∈ ps then some src else none) := by
        by_cases hin : q ∈ ps
        · rw [if_pos hin, if_pos (List.mem_cons_of_mem p hin)]
        · rw [if_neg hin, if_neg (by simp [List.mem_cons, hq, hin])]
      rw [hrhs]
      by_cases hp : (alookup acc (some p)).isSome
      · rw [if_pos hp]
        exact ih acc h
      · rw [if_neg hp]
        refine ih _ ?_
        have hne : (some p : Option Platform) ≠ some q := by
          intro hc
          exact hq (Option.some.inj hc).symm
        rw [alookup_append, h]
        dsimp only
        rw [alookup_cons, if_neg hne]
        rfl

/-- The wildcard key is untouched by the wildcard-expansion fold. -/
theorem expandFold_lookup_wildcard {ν : Type} (src : ν) (ps : List Platform)
    (acc : List ((Option Platform) × ν)) :
    alookup
      (ps.foldl
        (fun acc p => if (alookup acc (some p)).isSome then acc else acc ++ [(some p, src)])
        acc) none = alookup acc none := by
  induction ps generalizing acc with
  | nil => rfl
  | cons p ps ih =>
    simp only [List.foldl_cons]
    by_cases hp : (alookup acc (some p)).isSome
    · rw [if_pos hp]
      exact ih acc
    · rw [if_neg hp, ih]
      rw [alookup_append]
      cases hn : alookup acc none with
      | some v => rfl
      | none => simp [alookup]

theorem mem_allPlatforms (p : Platform) : p ∈ allPlatforms := by
  cases p <;> simp [allPlatforms]

/-- C6.  If a package's resolved platform map contains both the wildcard key
and at least one concrete platform key, wildcard expansion removes the
wildcard key and makes every concrete platform present, preserving existing
entries and inserting the wildcard's sources where the platform was absent;
and for every input map, after expansion no wildcard key coexists with a
concrete platform key. -/
theorem C6_wildcard_expansion {ν : Type} (pd : List ((Option Platform) × ν)) :
    ((alookup pd none).isSome → (∃ p, (alookup pd (some p)).isSome) →
      (alookup (maybeExpandNone pd) none = none ∧
       ∀ p, alookup (maybeExpandNone pd) (some p)
          = match alookup pd (some p) with
            | some v => some v
            | none => alookup pd none)) ∧
    ¬((alookup (maybeExpandNone pd) none).isSome ∧
      ∃ p, (alookup (maybeExpandNone pd) (some p)).isSome) := by
  constructor
  · intro hw ⟨p0, hp0⟩
    obtain ⟨src, hsrc⟩ := Option.isSome_iff_exists.mp hw
    obtain ⟨v0, hv0⟩ := Option.isSome_iff_exists.mp hp0
    have hlen : pd.length > 1 := by
      have h1 := mem_keys_of_alookup hsrc
      have h2 := mem_keys_of_alookup hv0
      have := two_le_length_of_mem_ne h1 h2 (by simp)
      simpa using this
    have hexp : maybeExpandNone pd
        = allPlatforms.foldl
            (fun acc p => if (alookup acc (some p)).isSome then acc else acc ++ [(some p, src)])
            (aerase pd none) := by
      unfold maybeExpandNone
      rw [if_pos hlen, hsrc]
    rw [hexp]
    constructor
    · rw [expandFold_lookup_wildcard, alookup_aerase_self]
    · intro p
      cases hp : alookup pd (some p) with
      | some v =>
        exact expandFold_lookup_some src allPlatforms _ p
          (by rw [alookup_aerase_ne pd none (some p) (by simp), hp])
      | none =>
        rw [expandFold_lookup_none src allPlatforms _ p
          (by rw [alookup_aerase_ne pd none (some p) (by simp), hp])]
        rw [if_pos (mem_allPlatforms p), hsrc]
  · rintro ⟨hw, p0, hp0⟩
    by_cases hlen : pd.length > 1
    · cases hsrc : alookup pd none with
      | some src =>
        have hexp : maybeExpandNone pd
            = allPlatforms.foldl
                (fun acc p => if (alookup acc (some p)).isSome then acc else acc ++ [(some p, src)])
                (aerase pd none) := by
          unfold maybeExpandNone
          rw [if_pos hlen, hsrc]
        rw [hexp, expandFold_lookup_wildcard, alookup_aerase_self] at hw
        exact absurd hw (by simp)
      | none =>
        have hexp : maybeExpandNone pd = pd := by
          unfold maybeExpandNone
          rw [if_pos hlen, hsrc]
        rw [hexp, hsrc] at hw
        exact absurd hw (by simp)
    · have hexp : maybeExpandNone pd = pd := by
        unfold maybeExpandNone
        rw [if_neg hlen]
      rw [hexp] at hw hp0
      obtain ⟨src, hsrc⟩ := Option.isSome_iff_exists.mp hw
      obtain ⟨v0, hv0⟩ := Option.isSome_iff_exists.mp hp0
      have h1 := mem_keys_of_alookup hsrc
      have h2 := mem_keys_of_alookup hv0
      have := two_le_length_of_mem_ne h1 h2 (by simp)
      simp at this
      omega

/-- C6, witness: a map holding the wildcard and `linux-64` expands so that
the wildcard key is gone and e.g. `osx-64` now carries the wildcard's value
while `linux-64` keeps its own. -/
theorem C6_witness :
    alookup (maybeExpandNone [((none : Option Platform), 0), (some .linux64, 1)]) none = none ∧
    alookup (maybeExpandNone [((none : Option Platform), 0), (some .linux64, 1)]) (some .osx64)
      = some 0 ∧
    alookup (maybeExpandNone [((none : Option Platform), 0), (some .linux64, 1)]) (some .linux64)
      = some 1 := by
  have h := (C6_wildcard_expansion [((none : Option Platform), 0), (some .linux64, 1)]).1
    (by decide) ⟨.linux64, by decide⟩
  refine ⟨h.1, ?_, ?_⟩
  · rw [h.2 .osx64]
    rfl
  · rw [h.2 .linux64]
    rfl

/- ### C7: fatal selector-parse errors -/

theorem afterFirst_of_append (c : Char) (u v : List Char) :
    ∃ w, afterFirst c (u ++ c :: v) = some w ∧ v <:+ w := by
  induction u with
  | nil => exact ⟨v, by simp [afterFirst], List.suffix_refl v⟩
  | cons x u ih =>
    by_cases h : x = c
    · subst h
      exact ⟨u ++ x :: v, by simp [afterFirst],
        ((List.suffix_cons x v).trans (List.suffix_append u (x :: v)))⟩
    · obtain ⟨w, hw, hs⟩ := ih
      exact ⟨w, by simp [afterFirst, h, hw], hs⟩

theorem multiBracket_of_shape {line : List Char} {u v w x : List Char}
    (h : line = u ++ '#' :: (v ++ ']' :: (w ++ '[' :: x))) :
    multiBracket line = true := by
  subst h
  obtain ⟨r1, hr1, hs1⟩ := afterFirst_of_append '#' u (v ++ ']' :: (w ++ '[' :: x))
  obtain ⟨t, ht⟩ := hs1
  have hr1' : r1 = (t ++ v) ++ ']' :: (w ++ '[' :: x) := by
    rw [← ht]
    simp
  obtain ⟨r2, hr2, hs2⟩ := afterFirst_of_append ']' (t ++ v) (w ++ '[' :: x)
  rw [← hr1'] at hr2
  have hmem : '[' ∈ r2 := hs2.subset (by simp)
  unfold multiBracket
  rw [hr1]
  dsimp only
  rw [hr2]
  simpa using hmem

theorem inner_fold_error (comment : List Char) (toks : List (List Char))
    (tok : List Char) (hmem : tok ∈ toks)
    (hunk : knownSelector (String.mk tok) = false) :
    ∀ acc, ∃ e,
      toks.foldlM
        (fun acc t =>
          if knownSelector (String.mk t) then
            pure (setAddAll acc (selectorPlatforms (String.mk t)))
          else
            (.error (.unsupportedSelector comment) : Except Err (List Platform)))
        acc = .error e := by
  induction toks with
  | nil => exact absurd hmem (by simp)
  | cons t ts ih =>
    intro acc
    rcases List.mem_cons.mp hmem with rfl | hmem'
    · rw [List.foldlM_cons, hunk]
      exact ⟨.unsupportedSelector comment, rfl⟩
    · rw [List.foldlM_cons]
      by_cases hk : knownSelector (String.mk t) = true
      · rw [hk]
        exact ih hmem' _
      · rw [Bool.eq_false_iff.mpr hk]
        exact ⟨.unsupportedSelector comment, rfl⟩

theorem extractLine_error (comment : List Char) (line : List Char)
    (h : (∃ u v w x, line = u ++ '#' :: (v ++ ']' :: (w ++ '[' :: x))) ∨
         (∃ g, findSelGroup line = some g ∧
            ∃ tok ∈ splitWs g, knownSelector (String.mk tok) = false)) :
    ∀ acc, ∃ e, extractLine comment acc line = .error e := by
  intro acc
  rcases h with ⟨u, v, w, x, hshape⟩ | ⟨g, hg, tok, htok, hunk⟩
  · unfold extractLine
    rw [multiBracket_of_shape hshape]
    exact ⟨.multipleBrackets line, rfl⟩
  · unfold extractLine
    by_cases hmb : multiBracket line = true
    · rw [hmb]
      exact ⟨.multipleBrackets line, rfl⟩
    · rw [Bool.eq_false_iff.mpr hmb, hg]
      exact inner_fold_error comment (splitWs g) tok htok hunk acc

theorem foldlM_extractLine_error (comment : List Char) (lines : List (List Char))
    (line : List Char) (hmem : line ∈ lines)
    (herr : ∀ acc, ∃ e, extractLine comment acc line = .error e) :
    ∀ acc, ∃ e, lines.foldlM (extractLine comment) acc = .error e := by
  induction lines with
  | nil => exact absurd hmem (by simp)
  | cons l ls ih =>
    intro acc
    rcases List.mem_cons.mp hmem with rfl | hmem'
    · obtain ⟨e, he⟩ := herr acc
      rw [List.foldlM_cons, he]
      exact ⟨e, rfl⟩
    · rw [List.foldlM_cons]
      cases hstep : extractLine comment acc l with
      | ok acc' =>
        obtain ⟨e, he⟩ := ih hmem' acc'
        exact ⟨e, by simpa using he⟩
      | error e => exact ⟨e, rfl⟩

/-- C7.  The selector-comment parser fails with an error and produces no
platform set whenever some logical line of the comment either contains a
second bracket group after a `#` (a `#` followed by `]` and then `[`, the
source's multiple-bracket pattern, which any line with two bracketed
selector groups after a `#` matches), or has a bracketed selector group one
of whose whitespace-separated tokens is not in the platform/selector table;
the whole parse aborts, so no partial platform set is ever returned. -/
theorem C7_selector_parse_errors (comment : String) (line : List Char)
    (hline : line ∈ splitlines comment.toList)
    (h : (∃ u v w x, line = u ++ '#' :: (v ++ ']' :: (w ++ '[' :: x))) ∨
         (∃ g, findSelGroup line = some g ∧
            ∃ tok ∈ splitWs g, knownSelector (String.mk tok) = false)) :
    ∃ e, extractMatchingPlatforms comment = .error e := by
  unfold extractMatchingPlatforms extractMatchingPlatformsL
  exact foldlM_extractLine_error comment.toList (splitlines comment.toList) line hline
    (extractLine_error comment.toList line h) []

/-- C7, witness: the unknown token `foobar` (Scenario E) aborts the parse,
and a line with two bracket groups aborts the parse. -/
theorem C7_witness :
    (∃ e, extractMatchingPlatforms "# [foobar]" = .error e) ∧
    (∃ e, extractMatchingPlatforms "# [a] [b]" = .error e) := by
  constructor
  · exact C7_selector_parse_errors "# [foobar]" "# [foobar]".toList (by decide)
      (.inr ⟨['f','o','o','b','a','r'], by decide,
        ['f','o','o','b','a','r'], by decide, by decide⟩)
  · exact C7_selector_parse_errors "# [a] [b]" "# [a] [b]".toList (by decide)
      (.inl ⟨[], [' ', '[', 'a'], [' '], ['b', ']'], by decide⟩)

/- ### C8: coarse platform collapsing -/

/-- All platforms stored in one coarse class of `valid`. -/
def flattenPlats (m2p : List (Meta × List Platform)) : List Platform :=
  (m2p.map Prod.snd).flatten

/-- The platforms popped from `platform_to_meta` while processing one coarse
class: the non-first platform of every meta bucket, plus (when several
distinct metas share the class) all platforms of the non-first metas. -/
def classPopped (centry : CondaPlatform × List (Meta × List Platform)) : List Platform :=
  (centry.2.map (fun me => me.2.tail)).flatten ++
    (if centry.2.length > 1 then (centry.2.tail.map Prod.snd).flatten else [])

theorem popAll_eq_filter (l : List (Platform × Meta)) (ks : List Platform) :
    popAll l ks = l.filter (fun e => !ks.contains e.1) := by
  induction ks generalizing l with
  | nil => simp [popAll]
  | cons k ks ih =>
    unfold popAll at ih ⊢
    rw [List.foldl_cons, ih, List.filter_filter]
    refine List.filter_congr ?_
    intro e _
    by_cases h : e.1 = k <;> simp [h, List.contains_cons]

theorem foldl_popAll {β : Type} (f : β → List Platform) (ms : List β)
    (acc : List (Platform × Meta)) :
    ms.foldl (fun a me => popAll a (f me)) acc
      = acc.filter (fun e => !((ms.map f).flatten).contains e.1) := by
  induction ms generalizing acc with
  | nil => simp
  | cons m ms ih =>
    rw [List.foldl_cons, ih, popAll_eq_filter, List.filter_filter]
    refine List.filter_congr ?_
    intro e _
    simp only [List.map_cons, List.flatten_cons]
    by_cases h : e.1 ∈ f m <;> by_cases h2 : e.1 ∈ (ms.map f).flatten <;>
      simp [h, h2]

theorem foldl_step_filter {γ : Type}
    (F : (List (Platform × Meta) × List Warn) → γ → (List (Platform × Meta) × List Warn))
    (popf : γ → List Platform)
    (hF : ∀ accp c, (F accp c).1 = accp.1.filter (fun e => !(popf c).contains e.1))
    (vlist : List γ) (acc : List (Platform × Meta)) (ws : List Warn) :
    (vlist.foldl F (acc, ws)).1
      = acc.filter (fun e => !((vlist.map popf).flatten).contains e.1) := by
  induction vlist generalizing acc ws with
  | nil => simp
  | cons c rest ih =>
    rw [List.foldl_cons]
    obtain ⟨a', w', hp⟩ : ∃ a' w', F (acc, ws) c = (a', w') :=
      ⟨(F (acc, ws) c).1, (F (acc, ws) c).2, rfl⟩
    have ha' : a' = acc.filter (fun e => !(popf c).contains e.1) := by
      have := hF (acc, ws) c
      rw [hp] at this
      exact this
    rw [hp, ih, ha', List.filter_filter]
    refine List.filter_congr ?_
    intro e _
    simp only [List.map_cons, List.flatten_cons]
    by_cases h1 : e.1 ∈ popf c <;>
      by_cases h2 : e.1 ∈ (rest.map popf).flatten <;>
        simp [h1, h2]

theorem resolveMPC_fst (ptm : List (Platform × Meta)) :
    (resolveMultiplePlatformConflicts ptm).1
      = ptm.filter
          (fun e => !(((buildValid ptm).map classPopped).flatten).contains e.1) := by
  unfold resolveMultiplePlatformConflicts
  refine foldl_step_filter _ classPopped ?_ (buildValid ptm) ptm []
  intro accp c
  obtain ⟨cp, m2p⟩ := c
  cases m2p with
  | nil => simp [classPopped]
  | cons fme others =>
    obtain ⟨fm, fps⟩ := fme
    by_cases hlen : ((fm, fps) :: others).length > 1
    · dsimp only
      rw [if_pos hlen]
      dsimp only
      rw [foldl_popAll (fun me => me.2.tail) ((fm, fps) :: others) accp.1,
        foldl_popAll Prod.snd others, List.filter_filter]
      refine List.filter_congr ?_
      intro e _
      simp only [classPopped, if_pos hlen]
      by_cases h1 : e.1 ∈ (((fm, fps) :: others).map (fun me => me.2.tail)).flatten <;>
        by_cases h2 : e.1 ∈ (others.map Prod.snd).flatten <;>
          simp [h1, h2]
    · dsimp only
      rw [if_neg hlen]
      rw [foldl_popAll (fun me => me.2.tail) ((fm, fps) :: others) accp.1]
      refine List.filter_congr ?_
      intro e _
      simp only [classPopped, if_neg hlen]
      by_cases h1 : e.1 ∈ (((fm, fps) :: others).map (fun me => me.2.tail)).flatten <;>
        simp [h1]

/-- The per-class grouping of a list of entries sharing one coarse class:
metas in first-seen order, each with its platforms in order. -/
def groupMetas (es : List (Platform × Meta)) : List (Meta × List Platform) :=
  es.foldl (fun g e => mdInsert g e.2 e.1) []

theorem validInsert_lookup (v : List (CondaPlatform × List (Meta × List Platform)))
    (cpI : CondaPlatform) (m : Meta) (p : Platform) (cpQ : CondaPlatform) :
    alookup (validInsert v cpI m p) cpQ
      = if cpI = cpQ then some (mdInsert ((alookup v cpQ).getD []) m p)
        else alookup v cpQ := by
  induction v with
  | nil =>
    by_cases h : cpI = cpQ <;>
      simp [validInsert, alookup_cons, alookup_nil, h, mdInsert]
  | cons entry rest ih =>
    obtain ⟨cp₀, g₀⟩ := entry
    by_cases h0 : cp₀ = cpI
    · subst h0
      have he : validInsert ((cp₀, g₀) :: rest) cp₀ m p
          = (cp₀, mdInsert g₀ m p) :: rest := by
        simp [validInsert]
      rw [he, alookup_cons, alookup_cons]
      by_cases h1 : cp₀ = cpQ
      · rw [if_pos h1, if_pos h1, if_pos h1]
        subst h1
        simp
      · rw [if_neg h1, if_neg h1, if_neg h1]
    · have he : validInsert ((cp₀, g₀) :: rest) cpI m p
          = (cp₀, g₀) :: validInsert rest cpI m p := by
        simp [validInsert, h0]
      rw [he, alookup_cons, ih, alookup_cons]
      by_cases h1 : cp₀ = cpQ
      · rw [if_pos h1]
        have : ¬ cpI = cpQ := fun hc => h0 (h1 ▸ hc ▸ rfl)
        rw [if_neg this, if_pos h1]
      · simp [h1]

theorem buildValid_go_lookup_some (l : List (Platform × Meta))
    (acc : List (CondaPlatform × List (Meta × List Platform)))
    (cp : CondaPlatform) (g : List (Meta × List Platform))
    (h : alookup acc cp = some g) :
    alookup (l.foldl (fun v e => validInsert v (condaSel e.1) e.2 e.1) acc) cp
      = some ((l.filter (fun e => decide (condaSel e.1 = cp))).foldl
          (fun g e => mdInsert g e.2 e.1) g) := by
  induction l generalizing acc g with
  | nil => simpa using h
  | cons e l ih =>
    rw [List.foldl_cons]
    by_cases hc : condaSel e.1 = cp
    · have hl : alookup (validInsert acc (condaSel e.1) e.2 e.1) cp
          = some (mdInsert g e.2 e.1) := by
        rw [validInsert_lookup, if_pos hc, h]
        rfl
      rw [ih _ _ hl, List.filter_cons_of_pos (by simpa using hc)]
      rw [List.foldl_cons]
    · have hl : alookup (validInsert acc (condaSel e.1) e.2 e.1) cp
          = some g := by
        rw [validInsert_lookup, if_neg hc, h]
      rw [ih _ _ hl, List.filter_cons_of_neg (by simpa using hc)]

theorem buildValid_go_lookup_none (l : List (Platform × Meta))
    (acc : List (CondaPlatform × List (Meta × List Platform)))
    (cp : CondaPlatform) (h : alookup acc cp = none) :
    alookup (l.foldl (fun v e => validInsert v (condaSel e.1) e.2 e.1) acc) cp
      = if (l.filter (fun e => decide (condaSel e.1 = cp))).isEmpty then none
        else some ((l.filter (fun e => decide (condaSel e.1 = cp))).foldl
          (fun g e => mdInsert g e.2 e.1) []) := by
  induction l generalizing acc with
  | nil => simpa using h
  | cons e l ih =>
    rw [List.foldl_cons]
    by_cases hc : condaSel e.1 = cp
    · have hl : alookup (validInsert acc (condaSel e.1) e.2 e.1) cp
          = some (mdInsert [] e.2 e.1) := by
        rw [validInsert_lookup, if_pos hc, h]
        rfl
      rw [buildValid_go_lookup_some _ _ _ _ hl,
        List.filter_cons_of_pos (by simpa using hc)]
      simp [List.foldl_cons]
    · have hl : alookup (validInsert acc (condaSel e.1) e.2 e.1) cp = none := by
        rw [validInsert_lookup, if_neg hc, h]
      rw [ih _ hl, List.filter_cons_of_neg (by simpa using hc)]

theorem buildValid_lookup_some (ptm : List (Platform × Meta)) (cp : CondaPlatform)
    (h : ptm.filter (fun e => decide (condaSel e.1 = cp)) ≠ []) :
    alookup (buildValid ptm) cp
      = some (groupMetas (ptm.filter (fun e => decide (condaSel e.1 = cp)))) := by
  unfold buildValid groupMetas
  rw [buildValid_go_lookup_none ptm [] cp rfl,
    if_neg (by simpa using h)]

theorem buildValid_lookup_none (ptm : List (Platform × Meta)) (cp : CondaPlatform)
    (h : ptm.filter (fun e => decide (condaSel e.1 = cp)) = []) :
    alookup (buildValid ptm) cp = none := by
  unfold buildValid
  rw [buildValid_go_lookup_none ptm [] cp rfl, if_pos (by simpa using h)]

theorem validInsert_keys (v : List (CondaPlatform × List (Meta × List Platform)))
    (cpI : CondaPlatform) (m : Meta) (p : Platform) :
    (validInsert v cpI m p).map Prod.fst = v.map Prod.fst ∨
    (validInsert v cpI m p).map Prod.fst = v.map Prod.fst ++ [cpI] := by
  induction v with
  | nil => right; simp [validInsert]
  | cons entry rest ih =>
    obtain ⟨cp₀, g₀⟩ := entry
    by_cases h0 : cp₀ = cpI
    · left
      subst h0
      simp [validInsert]
    · have he : validInsert ((cp₀, g₀) :: rest) cpI m p
          = (cp₀, g₀) :: validInsert rest cpI m p := by
        simp [validInsert, h0]
      rw [he]
      rcases ih with ih | ih
      · left; simp [ih]
      · right; simp [ih]

theorem validInsert_mem_key (v : List (CondaPlatform × List (Meta × List Platform)))
    (cpI : CondaPlatform) (m : Meta) (p : Platform) :
    cpI ∈ (validInsert v cpI m p).map Prod.fst := by
  induction v with
  | nil => simp [validInsert]
  | cons entry rest ih =>
    obtain ⟨cp₀, g₀⟩ := entry
    by_cases h0 : cp₀ = cpI
    · subst h0
      simp [validInsert]
    · have he : validInsert ((cp₀, g₀) :: rest) cpI m p
          = (cp₀, g₀) :: validInsert rest cpI m p := by
        simp [validInsert, h0]
      rw [he]
      simp [ih]

theorem validInsert_keys_nodup (v : List (CondaPlatform × List (Meta × List Platform)))
    (cpI : CondaPlatform) (m : Meta) (p : Platform)
    (h : (v.map Prod.fst).Nodup) : ((validInsert v cpI m p).map Prod.fst).Nodup := by
  induction v with
  | nil => simp [validInsert]
  | cons entry rest ih =>
    obtain ⟨cp₀, g₀⟩ := entry
    rw [List.map_cons, List.nodup_cons] at h
    by_cases h0 : cp₀ = cpI
    · subst h0
      have he : validInsert ((cp₀, g₀) :: rest) cp₀ m p
          = (cp₀, mdInsert g₀ m p) :: rest := by
        simp [validInsert]
      rw [he]
      simp [List.nodup_cons, h.1, h.2]
    · have he : validInsert ((cp₀, g₀) :: rest) cpI m p
          = (cp₀, g₀) :: validInsert rest cpI m p := by
        simp [validInsert, h0]
      rw [he, List.map_cons, List.nodup_cons]
      refine ⟨?_, ih h.2⟩
      rcases validInsert_keys rest cpI m p with hk | hk
      · rw [hk]; exact h.1
      · rw [hk]
        simp only [List.mem_append, List.mem_singleton]
        rintro (hc | rfl)
        · exact h.1 hc
        · exact h0 rfl

theorem buildValid_keys_nodup (ptm : List (Platform × Meta)) :
    ((buildValid ptm).map Prod.fst).Nodup := by
  unfold buildValid
  generalize hacc : ([] : List (CondaPlatform × List (Meta × List Platform))) = acc
  have hn : (acc.map Prod.fst).Nodup := by rw [← hacc]; simp
  clear hacc
  induction ptm generalizing acc with
  | nil => exact hn
  | cons e l ih =>
    rw [List.foldl_cons]
    exact ih _ (validInsert_keys_nodup acc (condaSel e.1) e.2 e.1 hn)

theorem mem_of_alookup_entry {κ ν : Type} [DecidableEq κ] {l : List (κ × ν)} {k : κ} {v : ν}
    (h : alookup l k = some v) : (k, v) ∈ l := by
  induction l with
  | nil => exact absurd h (by simp [alookup_nil])
  | cons e rest ih =>
    obtain ⟨k', v'⟩ := e
    rw [alookup_cons] at h
    by_cases h0 : k' = k
    · rw [if_pos h0] at h
      subst h0
      injection h with h
      subst h
      exact List.mem_cons_self _ _
    · rw [if_neg h0] at h
      exact List.mem_cons_of_mem _ (ih h)

theorem alookup_of_mem_nodup {κ ν : Type} [DecidableEq κ] {l : List (κ × ν)}
    (hn : keysNodup l) {k : κ} {v : ν} (h : (k, v) ∈ l) : alookup l k = some v := by
  induction l with
  | nil => exact absurd h (by simp)
  | cons e rest ih =>
    obtain ⟨k', v'⟩ := e
    unfold keysNodup at hn
    rw [List.map_cons, List.nodup_cons] at hn
    rcases List.mem_cons.mp h with heq | hmem
    · injection heq with h1 h2
      subst h1; subst h2
      rw [alookup_cons, if_pos rfl]
    · rw [alookup_cons]
      by_cases h0 : k' = k
      · exfalso
        subst h0
        exact hn.1 (by exact List.mem_map.mpr ⟨(k', v), hmem, rfl⟩)
      · rw [if_neg h0]
        exact ih hn.2 hmem

theorem mdInsert_flatten_perm (g : List (Meta × List Platform)) (m : Meta) (p : Platform) :
    (flattenPlats (mdInsert g m p)).Perm (flattenPlats g ++ [p]) := by
  induction g with
  | nil => simp [mdInsert, flattenPlats]
  | cons mp rest ih =>
    obtain ⟨m₀, ps₀⟩ := mp
    by_cases h : m₀ = m
    · subst h
      have he : mdInsert ((m₀, ps₀) :: rest) m₀ p = (m₀, ps₀ ++ [p]) :: rest := by
        simp [mdInsert]
      rw [he]
      simp only [flattenPlats, List.map_cons, List.flatten_cons]
      have ha : (ps₀ ++ [p]) ++ (rest.map Prod.snd).flatten
          = ps₀ ++ ([p] ++ (rest.map Prod.snd).flatten) := by
        rw [List.append_assoc]
      rw [ha, List.append_assoc]
      exact List.Perm.append_left ps₀ List.perm_append_comm
    · have he : mdInsert ((m₀, ps₀) :: rest) m p = (m₀, ps₀) :: mdInsert rest m p := by
        simp [mdInsert, h]
      rw [he]
      simp only [flattenPlats, List.map_cons, List.flatten_cons] at ih ⊢
      rw [List.append_assoc]
      exact List.Perm.append_left ps₀ ih

theorem foldl_mdInsert_flatten_perm (es : List (Platform × Meta))
    (acc : List (Meta × List Platform)) :
    (flattenPlats (es.foldl (fun g e => mdInsert g e.2 e.1) acc)).Perm
      (flattenPlats acc ++ es.map Prod.fst) := by
  induction es generalizing acc with
  | nil => simp
  | cons e es ih =>
    rw [List.foldl_cons]
    refine (ih (mdInsert acc e.2 e.1)).trans ?_
    have h1 := mdInsert_flatten_perm acc e.2 e.1
    refine (h1.append_right (es.map Prod.fst)).trans ?_
    rw [List.append_assoc]
    simp

theorem groupMetas_flatten_perm (es : List (Platform × Meta)) :
    (flattenPlats (groupMetas es)).Perm (es.map Prod.fst) := by
  have := foldl_mdInsert_flatten_perm es []
  simpa [groupMetas, flattenPlats] using this

theorem mdInsert_sound (g : List (Meta × List Platform)) (m : Meta) (p : Platform) :
    ∀ mp ∈ mdInsert g m p, ∀ q ∈ mp.2,
      (∃ mp' ∈ g, mp'.1 = mp.1 ∧ q ∈ mp'.2) ∨ (q = p ∧ mp.1 = m) := by
  induction g with
  | nil =>
    intro mp hmp q hq
    simp [mdInsert] at hmp
    subst hmp
    simp at hq
    exact Or.inr ⟨hq, rfl⟩
  | cons mp₀ rest ih =>
    obtain ⟨m₀, ps₀⟩ := mp₀
    intro mp hmp q hq
    by_cases h : m₀ = m
    · subst h
      have he : mdInsert ((m₀, ps₀) :: rest) m₀ p = (m₀, ps₀ ++ [p]) :: rest := by
        simp [mdInsert]
      rw [he] at hmp
      rcases List.mem_cons.mp hmp with rfl | hmem
      · simp only at hq
        rcases List.mem_append.mp hq with hq | hq
        · exact Or.inl ⟨(m₀, ps₀), List.mem_cons_self _ _, rfl, hq⟩
        · simp at hq
          exact Or.inr ⟨hq, rfl⟩
      · exact Or.inl ⟨mp, List.mem_cons_of_mem _ hmem, rfl, hq⟩
    · have he : mdInsert ((m₀, ps₀) :: rest) m p = (m₀, ps₀) :: mdInsert rest m p := by
        simp [mdInsert, h]
      rw [he] at hmp
      rcases List.mem_cons.mp hmp with rfl | hmem
      · exact Or.inl ⟨(m₀, ps₀), List.mem_cons_self _ _, rfl, hq⟩
      · rcases ih mp hmem q hq with ⟨mp', hmp', heq, hqm⟩ | hr
        · exact Or.inl ⟨mp', List.mem_cons_of_mem _ hmp', heq, hqm⟩
        · exact Or.inr hr

theorem foldl_mdInsert_sound (es : List (Platform × Meta))
    (acc : List (Meta × List Platform)) :
    ∀ mp ∈ es.foldl (fun g e => mdInsert g e.2 e.1) acc, ∀ q ∈ mp.2,
      (∃ mp' ∈ acc, mp'.1 = mp.1 ∧ q ∈ mp'.2) ∨ (q, mp.1) ∈ es := by
  induction es generalizing acc with
  | nil =>
    intro mp hmp q hq
    exact Or.inl ⟨mp, hmp, rfl, hq⟩
  | cons e es ih =>
    intro mp hmp q hq
    rw [List.foldl_cons] at hmp
    rcases ih (mdInsert acc e.2 e.1) mp hmp q hq with ⟨mp', hmp', heq, hqm⟩ | hr
    · rcases mdInsert_sound acc e.2 e.1 mp' hmp' q hqm with ⟨mp'', hmp'', heq', hqm'⟩ | hr'
      · exact Or.inl ⟨mp'', hmp'', heq'.trans heq, hqm'⟩
      · refine Or.inr (List.mem_cons.mpr (Or.inl ?_))
        rw [hr'.1, ← heq, hr'.2]
    · exact Or.inr (List.mem_cons_of_mem _ hr)

theorem groupMetas_sound (es : List (Platform × Meta)) :
    ∀ mp ∈ groupMetas es, ∀ q ∈ mp.2, (q, mp.1) ∈ es := by
  intro mp hmp q hq
  rcases foldl_mdInsert_sound es [] mp hmp q hq with ⟨mp', hmp', _, _⟩ | hr
  · exact absurd hmp' (by simp)
  · exact hr

theorem mdInsert_head (m₀ : Meta) (ps₀ : List Platform)
    (grest : List (Meta × List Platform)) (m : Meta) (p : Platform) :
    ∃ ps₀' grest', mdInsert ((m₀, ps₀) :: grest) m p = (m₀, ps₀') :: grest' ∧
      (ps₀ ≠ [] → ps₀'.head? = ps₀.head?) ∧ (ps₀ = [] → ps₀' = [p] ∨ ps₀' = []) := by
  by_cases h : m₀ = m
  · subst h
    refine ⟨ps₀ ++ [p], grest, by simp [mdInsert], ?_, ?_⟩
    · intro hne
      cases ps₀ with
      | nil => exact absurd rfl hne
      | cons a l => simp
    · intro he
      subst he
      simp
  · exact ⟨ps₀, mdInsert grest m p, by simp [mdInsert, h], fun _ => rfl,
      fun he => Or.inr he⟩

theorem foldl_mdInsert_head (es : List (Platform × Meta)) (m₀ : Meta)
    (ps₀ : List Platform) (grest : List (Meta × List Platform)) (hne : ps₀ ≠ []) :
    ∃ ps₀' grest',
      es.foldl (fun g e => mdInsert g e.2 e.1) ((m₀, ps₀) :: grest)
        = (m₀, ps₀') :: grest' ∧ ps₀'.head? = ps₀.head? := by
  induction es generalizing ps₀ grest with
  | nil => exact ⟨ps₀, grest, rfl, rfl⟩
  | cons e es ih =>
    rw [List.foldl_cons]
    obtain ⟨ps₁, grest₁, heq, hh, _⟩ := mdInsert_head m₀ ps₀ grest e.2 e.1
    have hps₁ : ps₁ ≠ [] := by
      intro hc
      have := hh hne
      rw [hc] at this
      cases ps₀ with
      | nil => exact hne rfl
      | cons a l => simp at this
    rw [heq]
    obtain ⟨ps₂, grest₂, heq₂, hh₂⟩ := ih ps₁ grest₁ hps₁
    exact ⟨ps₂, grest₂, heq₂, hh₂.trans (hh hne)⟩

theorem groupMetas_head (e : Platform × Meta) (es : List (Platform × Meta)) :
    ∃ ps₀ grest, groupMetas (e :: es) = (e.2, ps₀) :: grest ∧
      ps₀.head? = some e.1 := by
  unfold groupMetas
  rw [List.foldl_cons]
  have hstart : mdInsert [] e.2 e.1 = [(e.2, [e.1])] := rfl
  rw [hstart]
  obtain ⟨ps₀, grest, heq, hh⟩ := foldl_mdInsert_head es e.2 [e.1] [] (by simp)
  exact ⟨ps₀, grest, heq, by simpa using hh⟩

theorem classPopped_sub_flatten {cp : CondaPlatform} {g : List (Meta × List Platform)}
    {q : Platform} (h : q ∈ classPopped (cp, g)) : ∃ mp ∈ g, q ∈ mp.2 := by
  unfold classPopped at h
  rcases List.mem_append.mp h with h | h
  · obtain ⟨l, hl, hql⟩ := List.mem_flatten.mp h
    obtain ⟨me, hme, rfl⟩ := List.mem_map.mp hl
    exact ⟨me, hme, (List.tail_sublist me.2).subset hql⟩
  · by_cases hlen : g.length > 1
    · rw [if_pos hlen] at h
      obtain ⟨l, hl, hql⟩ := List.mem_flatten.mp h
      obtain ⟨me, hme, rfl⟩ := List.mem_map.mp hl
      exact ⟨me, (List.tail_sublist g).subset hme, hql⟩
    · rw [if_neg hlen] at h
      exact absurd h (by simp)

theorem classPopped_iff (cp : CondaPlatform) {g : List (Meta × List Platform)}
    {q h₀ : Platform} {m₀ : Meta} {ps₀ : List Platform} {grest : List (Meta × List Platform)}
    (hg : g = (m₀, ps₀) :: grest) (hhead : ps₀.head? = some h₀)
    (hnd : (flattenPlats g).Nodup) (hq : q ∈ flattenPlats g) :
    q ∈ classPopped (cp, g) ↔ q ≠ h₀ := by
  subst hg
  obtain ⟨t₀, rfl⟩ : ∃ t₀, ps₀ = h₀ :: t₀ := by
    cases ps₀ with
    | nil => exact absurd hhead (by simp)
    | cons a l =>
      simp only [List.head?_cons, Option.some.injEq] at hhead
      exact ⟨l, by rw [hhead]⟩
  simp only [flattenPlats, List.map_cons, List.flatten_cons] at hnd hq
  have hmem_equiv : q ∈ classPopped (cp, (m₀, h₀ :: t₀) :: grest) ↔
      (q ∈ t₀ ∨ q ∈ (grest.map Prod.snd).flatten) := by
    unfold classPopped
    constructor
    · intro h
      rcases List.mem_append.mp h with h | h
      · simp only [List.map_cons, List.flatten_cons, List.tail_cons] at h
        rcases List.mem_append.mp h with h | h
        · exact Or.inl h
        · obtain ⟨l, hl, hql⟩ := List.mem_flatten.mp h
          obtain ⟨me, hme, rfl⟩ := List.mem_map.mp hl
          exact Or.inr (List.mem_flatten.mpr
            ⟨me.2, List.mem_map.mpr ⟨me, hme, rfl⟩, (List.tail_sublist me.2).subset hql⟩)
      · by_cases hlen : ((m₀, h₀ :: t₀) :: grest).length > 1
        · rw [if_pos hlen] at h
          simp only [List.tail_cons] at h
          exact Or.inr h
        · rw [if_neg hlen] at h
          exact absurd h (by simp)
    · intro h
      rcases h with h | h
      · refine List.mem_append.mpr (Or.inl ?_)
        simp only [List.map_cons, List.flatten_cons, List.tail_cons]
        exact List.mem_append.mpr (Or.inl h)
      · have hgrest : grest ≠ [] := by
          intro hc
          rw [hc] at h
          simp at h
        have hlen : ((m₀, h₀ :: t₀) :: grest).length > 1 := by
          cases grest with
          | nil => exact absurd rfl hgrest
          | cons a l => simp
        refine List.mem_append.mpr (Or.inr ?_)
        rw [if_pos hlen]
        simpa using h
  rw [hmem_equiv]
  rw [List.cons_append] at hnd hq
  rw [List.nodup_cons] at hnd
  constructor
  · rintro (h | h) rfl
    · exact hnd.1 (List.mem_append.mpr (Or.inl h))
    · exact hnd.1 (List.mem_append.mpr (Or.inr h))
  · intro hne
    rcases List.mem_cons.mp hq with rfl | h
    · exact absurd rfl hne
    · rcases List.mem_append.mp h with h | h
      · exact Or.inl h
      · exact Or.inr h

theorem find?_eq_filter_head {α : Type} (pr : α → Bool) (l : List α) :
    l.find? pr = (l.filter pr).head? := by
  induction l with
  | nil => rfl
  | cons a l ih =>
    by_cases h : pr a = true
    · rw [List.find?_cons_of_pos _ h, List.filter_cons_of_pos h]
      rfl
    · rw [List.find?_cons_of_neg _ (by simpa using h),
        List.filter_cons_of_neg (by simpa using h), ih]

theorem eq_of_mem_keysNodup {l : List (Platform × Meta)} (hn : keysNodup l)
    {e₁ e₂ : Platform × Meta} (h₁ : e₁ ∈ l) (h₂ : e₂ ∈ l) (hk : e₁.1 = e₂.1) :
    e₁ = e₂ := by
  obtain ⟨a, b⟩ := e₁
  obtain ⟨c, d⟩ := e₂
  simp only at hk
  subst hk
  have n1 := alookup_of_mem_nodup hn h₁
  have n2 := alookup_of_mem_nodup hn h₂
  rw [n1] at n2
  injection n2 with n2
  rw [n2]

/-- Survivor characterization of the coarse collapse: an entry of a map with
distinct platform keys survives `_resolve_multiple_platform_conflicts`
exactly when it is the first entry of its coarse conda-platform class. -/
theorem resolveMPC_mem_iff (ptm : List (Platform × Meta)) (hn : keysNodup ptm)
    (e : Platform × Meta) (he : e ∈ ptm) :
    e ∈ (resolveMultiplePlatformConflicts ptm).1 ↔
      ptm.find? (fun x => decide (condaSel x.1 = condaSel e.1)) = some e := by
  set es := ptm.filter (fun x => decide (condaSel x.1 = condaSel e.1)) with hes
  have he' : e ∈ es := List.mem_filter.mpr ⟨he, by simp⟩
  obtain ⟨e₀, es', hes0⟩ : ∃ e₀ es', es = e₀ :: es' := by
    cases h : es with
    | nil =>
      rw [h] at he'
      exact absurd he' (by simp)
    | cons a l => exact ⟨a, l, rfl⟩
  have hlook : alookup (buildValid ptm) (condaSel e.1) = some (groupMetas es) :=
    buildValid_lookup_some ptm (condaSel e.1) (by rw [← hes, hes0]; simp)
  obtain ⟨ps₀, grest, hg, hhead⟩ := groupMetas_head e₀ es'
  rw [← hes0] at hg
  have hfp := groupMetas_flatten_perm es
  have hndk : (es.map Prod.fst).Nodup :=
    ((List.filter_sublist ptm).map Prod.fst).nodup hn
  have hndf : (flattenPlats (groupMetas es)).Nodup := hfp.nodup_iff.mpr hndk
  have hqf : e.1 ∈ flattenPlats (groupMetas es) :=
    hfp.mem_iff.mpr (List.mem_map.mpr ⟨e, he', rfl⟩)
  have hiff := classPopped_iff (condaSel e.1) hg hhead hndf hqf
  have hfind : ptm.find? (fun x => decide (condaSel x.1 = condaSel e.1)) = some e₀ := by
    rw [find?_eq_filter_head, ← hes, hes0]
    rfl
  have hsub : es.Sublist ptm := List.filter_sublist ptm
  rw [resolveMPC_fst]
  constructor
  · intro hmem
    have hpred := (List.mem_filter.mp hmem).2
    have hnotp : e.1 ∉ ((buildValid ptm).map classPopped).flatten := by
      intro hc
      simp [hc] at hpred
    have hnotc : e.1 ∉ classPopped (condaSel e.1, groupMetas es) := by
      intro hc
      exact hnotp (List.mem_flatten.mpr
        ⟨classPopped (condaSel e.1, groupMetas es),
         List.mem_map.mpr ⟨(condaSel e.1, groupMetas es), mem_of_alookup_entry hlook, rfl⟩,
         hc⟩)
    have heq0 : e₀.1 = e.1 := by
      by_contra hne
      exact hnotc (hiff.mpr (fun hc => hne hc.symm))
    have : e₀ = e :=
      eq_of_mem_keysNodup hn (hsub.subset (hes0 ▸ List.mem_cons_self e₀ es')) he heq0
    rw [hfind, this]
  · intro hfind'
    have he₀ : e₀ = e := by
      rw [hfind] at hfind'
      injection hfind'
    have hnot : e.1 ∉ ((buildValid ptm).map classPopped).flatten := by
      intro hc'
      obtain ⟨l, hl, hql⟩ := List.mem_flatten.mp hc'
      obtain ⟨centry, hcentry, rfl⟩ := List.mem_map.mp hl
      obtain ⟨cp', g'⟩ := centry
      have hlook' : alookup (buildValid ptm) cp' = some g' :=
        alookup_of_mem_nodup (buildValid_keys_nodup ptm) hcentry
      have hcp' : cp' = condaSel e.1 := by
        obtain ⟨mp, hmp, hqmp⟩ := classPopped_sub_flatten hql
        by_cases hemp : ptm.filter (fun x => decide (condaSel x.1 = cp')) = []
        · rw [buildValid_lookup_none ptm cp' hemp] at hlook'
          exact absurd hlook' (by simp)
        · rw [buildValid_lookup_some ptm cp' hemp] at hlook'
          injection hlook' with hg'
          rw [← hg'] at hmp
          have := groupMetas_sound _ mp hmp e.1 hqmp
          have := (List.mem_filter.mp this).2
          have h2 : condaSel e.1 = cp' := by simpa using this
          exact h2.symm
      subst hcp'
      rw [hlook'] at hlook
      injection hlook with hgg
      rw [hgg] at hql
      have := hiff.mp hql
      rw [he₀] at this
      exact this rfl
    exact List.mem_filter.mpr ⟨he, by simpa using hnot⟩

theorem length_eq_one_of_mem_all_eq {α : Type} {l : List α} {a : α}
    (hmem : a ∈ l) (hall : ∀ x ∈ l, x = a) (hnd : l.Nodup) : l.length = 1 := by
  cases l with
  | nil => exact absurd hmem (by simp)
  | cons x xs =>
    have hx : x = a := hall x (List.mem_cons_self _ _)
    have hxs : xs = [] := by
      rw [List.eq_nil_iff_forall_not_mem]
      intro y hy
      have hya : y = a := hall y (List.mem_cons_of_mem _ hy)
      rw [List.nodup_cons] at hnd
      apply hnd.1
      rw [hx, ← hya]
      exact hy
    rw [hxs]
    rfl

/-- C8.  For a platform-to-record map with distinct platform keys, after the
coarse collapse of `_resolve_multiple_platform_conflicts`: (1) at most one
platform key remains for each coarse conda-platform class; (2) the number of
surviving entries — hence of distinct selectors emitted — never exceeds the
number of distinct coarse classes touched by the input map; and (3) for any
class whose records are all identical and which is touched by the map,
exactly one representative platform is kept. -/
theorem C8_coarse_collapse (ptm : List (Platform × Meta)) (hn : keysNodup ptm) :
    (∀ e₁ ∈ (resolveMultiplePlatformConflicts ptm).1,
       ∀ e₂ ∈ (resolveMultiplePlatformConflicts ptm).1,
       condaSel e₁.1 = condaSel e₂.1 → e₁ = e₂) ∧
    ((resolveMultiplePlatformConflicts ptm).1.length
       ≤ ((ptm.map (fun e => condaSel e.1)).dedup).length) ∧
    (∀ cp : CondaPlatform,
       (∀ e₁ ∈ ptm, ∀ e₂ ∈ ptm, condaSel e₁.1 = cp → condaSel e₂.1 = cp →
          e₁.2 = e₂.2) →
       (∃ e ∈ ptm, condaSel e.1 = cp) →
       ((resolveMultiplePlatformConflicts ptm).1.filter
          (fun e => decide (condaSel e.1 = cp))).length = 1) := by
  have hsubl : ((resolveMultiplePlatformConflicts ptm).1).Sublist ptm := by
    rw [resolveMPC_fst]
    exact List.filter_sublist ptm
  have hptmnd : ptm.Nodup := List.Nodup.of_map Prod.fst hn
  have hresnd : ((resolveMultiplePlatformConflicts ptm).1).Nodup := hsubl.nodup hptmnd
  have hone : ∀ e₁ ∈ (resolveMultiplePlatformConflicts ptm).1,
      ∀ e₂ ∈ (resolveMultiplePlatformConflicts ptm).1,
      condaSel e₁.1 = condaSel e₂.1 → e₁ = e₂ := by
    intro e₁ h₁ e₂ h₂ hcls
    have hm₁ : e₁ ∈ ptm := hsubl.subset h₁
    have hm₂ : e₂ ∈ ptm := hsubl.subset h₂
    have hf₁ := (resolveMPC_mem_iff ptm hn e₁ hm₁).mp h₁
    have hf₂ := (resolveMPC_mem_iff ptm hn e₂ hm₂).mp h₂
    have hpred : (fun x : Platform × Meta => decide (condaSel x.1 = condaSel e₂.1))
        = (fun x : Platform × Meta => decide (condaSel x.1 = condaSel e₁.1)) := by
      funext x
      rw [hcls]
    rw [hpred, hf₁] at hf₂
    exact Option.some.inj hf₂
  refine ⟨hone, ?_, ?_⟩
  · have hmapnd : ((resolveMultiplePlatformConflicts ptm).1.map
        (fun e => condaSel e.1)).Nodup := by
      refine List.Nodup.map_on ?_ hresnd
      intro x hx y hy hxy
      exact hone x hx y hy hxy
    have hsubs : ((resolveMultiplePlatformConflicts ptm).1.map (fun e => condaSel e.1))
        ⊆ (ptm.map (fun e => condaSel e.1)) :=
      (hsubl.map (fun e => condaSel e.1)).subset
    have hlen1 : ((resolveMultiplePlatformConflicts ptm).1.map
        (fun e => condaSel e.1)).length
        = ((resolveMultiplePlatformConflicts ptm).1.map
            (fun e => condaSel e.1)).toFinset.card :=
      (List.toFinset_card_of_nodup hmapnd).symm
    have hcard : ((resolveMultiplePlatformConflicts ptm).1.map
        (fun e => condaSel e.1)).toFinset.card
        ≤ (ptm.map (fun e => condaSel e.1)).toFinset.card := by
      refine Finset.card_le_card ?_
      intro x hx
      rw [List.mem_toFinset] at hx ⊢
      exact hsubs hx
    have := hlen1.trans_le (hcard.trans_eq (List.card_toFinset _))
    simpa using this
  · intro cp _ hex
    obtain ⟨ew, hew, hewc⟩ := hex
    have hesne : ptm.filter (fun x => decide (condaSel x.1 = cp)) ≠ [] := by
      intro hc
      have : ew ∈ ptm.filter (fun x => decide (condaSel x.1 = cp)) :=
        List.mem_filter.mpr ⟨hew, by simp [hewc]⟩
      rw [hc] at this
      exact absurd this (by simp)
    obtain ⟨e₀, es', hes0⟩ : ∃ e₀ es',
        ptm.filter (fun x => decide (condaSel x.1 = cp)) = e₀ :: es' := by
      cases h : ptm.filter (fun x => decide (condaSel x.1 = cp)) with
      | nil => exact absurd h hesne
      | cons a l => exact ⟨a, l, rfl⟩
    have he₀mem : e₀ ∈ ptm.filter (fun x => decide (condaSel x.1 = cp)) := by
      rw [hes0]
      exact List.mem_cons_self _ _
    have he₀ptm : e₀ ∈ ptm := (List.mem_filter.mp he₀mem).1
    have he₀cls : condaSel e₀.1 = cp := by
      have := (List.mem_filter.mp he₀mem).2
      simpa using this
    have hfind : ptm.find? (fun x => decide (condaSel x.1 = condaSel e₀.1)) = some e₀ := by
      rw [find?_eq_filter_head]
      have hpred : (fun x : Platform × Meta => decide (condaSel x.1 = condaSel e₀.1))
          = (fun x : Platform × Meta => decide (condaSel x.1 = cp)) := by
        funext x
        rw [he₀cls]
      rw [hpred, hes0]
      rfl
    have he₀res : e₀ ∈ (resolveMultiplePlatformConflicts ptm).1 :=
      (resolveMPC_mem_iff ptm hn e₀ he₀ptm).mpr hfind
    refine length_eq_one_of_mem_all_eq
      (List.mem_filter.mpr ⟨he₀res, by simp [he₀cls]⟩) ?_
      ((List.filter_sublist _).nodup hresnd)
    intro x hx
    have hxres := (List.mem_filter.mp hx).1
    have hxcls : condaSel x.1 = cp := by
      have := (List.mem_filter.mp hx).2
      simpa using this
    exact hone x hxres e₀ he₀res (by rw [hxcls, he₀cls])

/-- C8, witness: Scenario B — two records for `scipy`, identical pin
`>=1.2.3`, on `linux-64` and `linux-aarch64` (same coarse class linux) —
collapse to the single representative `linux-64` entry; the collapse result
is computed explicitly as well. -/
theorem C8_witness :
    ((resolveMultiplePlatformConflicts
        [(.linux64, { name := "scipy", which := .conda, pin := some ">=1.2.3" }),
         (.linuxAarch64, { name := "scipy", which := .conda, pin := some ">=1.2.3" })]).1.filter
       (fun e => decide (condaSel e.1 = .linux))).length = 1 ∧
    resolveMultiplePlatformConflicts
        [(.linux64, { name := "scipy", which := .conda, pin := some ">=1.2.3" }),
         (.linuxAarch64, { name := "scipy", which := .conda, pin := some ">=1.2.3" })]
      = ([(.linux64, { name := "scipy", which := .conda, pin := some ">=1.2.3" })], []) := by
  constructor
  · exact (C8_coarse_collapse
      [(.linux64, { name := "scipy", which := .conda, pin := some ">=1.2.3" }),
       (.linuxAarch64, { name := "scipy", which := .conda, pin := some ">=1.2.3" })]
      (by unfold keysNodup; decide)).2.2 .linux (by decide)
      ⟨(.linux64, { name := "scipy", which := .conda, pin := some ">=1.2.3" }),
        by decide, rfl⟩
  · rfl
